import Mathlib

/-!
Verification of the local image post-processing and animation pipeline of the
AI-companion-2d repository: the flood-fill background matte
(src/app/pre-processing/removeBackgroud.ts), the grid frame extractor with its
cache (src/app/pre-processing/split.ts), and the animation playback engine
(src/app/components/Character.tsx, class CharacterManager).

The TypeScript code is shallowly embedded: mutable state becomes explicit
state passing, JS numbers on pixel data become Nat/Int (all pixel values are
8-bit), the tolerance percentage becomes an exact rational, callbacks become
emitted events, thrown exceptions become an explicit flag or Except, and the
two JS Map caches become association lists that preserve insertion order
(update-in-place keeps position, fresh keys are appended), exactly as JS Map
iteration order behaves.
-/

namespace AIComp

/-! ## Colors and pixel buffers -/

/-- One RGBA pixel, each channel an 8-bit value (0..255) in the source data. -/
structure Color where
  r : Nat
  g : Nat
  b : Nat
  a : Nat
deriving DecidableEq, Repr

/-- A decoded image as exposed by `canvas.getImageData`: `data` maps the pixel
index `p = y * width + x` to its RGBA value.  (The source stores the flat byte
array `data` with pixel `p` at byte offset `4*p`; we address whole pixels.) -/
@[ext]
structure Img where
  width : Nat
  height : Nat
  data : Nat → Color

/-! ## Animation playback engine (Character.tsx, class CharacterManager) -/

/-- `CharacterState` of Character.tsx: `"playing" | "paused" | "stopped"`. -/
inductive CharacterState where
  | playing
  | paused
  | stopped
deriving DecidableEq, Repr

/-- `AnimationConfig` of Character.tsx.  The two optional callbacks are
modelled by presence flags; their invocations are reported as events. -/
structure AnimationConfig where
  frames : List String
  frameDuration : Nat
  loop : Bool
  hasOnComplete : Bool
  hasOnFrameChange : Bool
deriving DecidableEq, Repr

/-- Observable callback invocations of the engine. -/
inductive AnimEvent where
  | frameChange (index : Nat)
  | complete
deriving DecidableEq, Repr

/-- The mutable fields of `class CharacterManager`.  `timerActive` models
`animationTimer !== null`; `hasOnFrameChange` models the manager-level
`onFrameChange` callback handed to `playAnimation`. -/
structure CharacterManager where
  animations : List (String × AnimationConfig)
  currentAnimation : Option AnimationConfig
  timerActive : Bool
  currentFrameIndex : Nat
  state : CharacterState
  hasOnFrameChange : Bool
deriving DecidableEq, Repr

/-- Lookup in the `animations` record (`this.animations[type]`). -/
def findAnimation : List (String × AnimationConfig) → String → Option AnimationConfig
  | [], _ => none
  | (k, v) :: rest, name => if k = name then some v else findAnimation rest name

/-- `stopAnimation()`: clears the interval, the active animation, the frame
index, the state and the manager-level callback. -/
def stopAnimation (s : CharacterManager) : CharacterManager :=
  { s with
    timerActive := false
    currentAnimation := none
    currentFrameIndex := 0
    state := .stopped
    hasOnFrameChange := false }

/-- `playAnimation(type, onFrameChange?)`: tears down any active animation,
then looks the name up; a missing name only warns and returns.  Otherwise the
clip becomes active at frame 0 in state `playing` and the interval starts
(`startAnimationLoop`). -/
def playAnimation (s : CharacterManager) (name : String) (cb : Bool) :
    CharacterManager :=
  let s1 := if s.currentAnimation.isSome then stopAnimation s else s
  match findAnimation s1.animations name with
  | none => s1
  | some anim =>
      { s1 with
        currentAnimation := some anim
        currentFrameIndex := 0
        state := .playing
        hasOnFrameChange := cb
        timerActive := true }

/-- `pauseAnimation()`. -/
def pauseAnimation (s : CharacterManager) : CharacterManager :=
  if s.state = .playing ∧ s.timerActive then
    { s with timerActive := false, state := .paused }
  else s

/-- `resumeAnimation()`. -/
def resumeAnimation (s : CharacterManager) : CharacterManager :=
  if s.state = .paused ∧ s.currentAnimation.isSome then
    { s with state := .playing, timerActive := true }
  else s

/-- One firing of the `setInterval` callback of `startAnimationLoop`.
Returns the new state, the emitted callback events, and whether the callback
threw.  In the non-looping overflow branch the source runs
`this.stopAnimation()` (which sets `this.currentAnimation = null`) and then
evaluates `this.currentAnimation.onComplete`, a property read on `null`: this
throws a TypeError, so no `onComplete` event is ever emitted. -/
def tick (s : CharacterManager) : CharacterManager × List AnimEvent × Bool :=
  match s.currentAnimation with
  | none => (s, [], false)
  | some anim =>
      let idx := s.currentFrameIndex + 1
      if idx ≥ anim.frames.length then
        if anim.loop then
          let s1 := { s with currentFrameIndex := 0 }
          (s1, if s.hasOnFrameChange then [.frameChange 0] else [], false)
        else
          (stopAnimation { s with currentFrameIndex := idx }, [], true)
      else
        let s1 := { s with currentFrameIndex := idx }
        (s1, if s.hasOnFrameChange then [.frameChange idx] else [], false)

/-- Run up to `n` timer firings: the interval only fires while armed, and a
throw escapes the interval callback (no further event in that firing). -/
def runTicks : Nat → CharacterManager → CharacterManager × List AnimEvent × Bool
  | 0, s => (s, [], false)
  | n + 1, s =>
      if s.timerActive then
        let r := tick s
        if r.2.2 then (r.1, r.2.1, true)
        else
          let r2 := runTicks n r.1
          (r2.1, r.2.1 ++ r2.2.1, r2.2.2)
      else (s, [], false)

/-- A 3-frame, non-looping, 100 ms clip with both callbacks attached. -/
def talkingClip : AnimationConfig :=
  { frames := ["f0", "f1", "f2"]
    frameDuration := 100
    loop := false
    hasOnComplete := true
    hasOnFrameChange := true }

/-- A fresh manager owning only the `talking` clip. -/
def talkingManager : CharacterManager :=
  { animations := [("talking", talkingClip)]
    currentAnimation := none
    timerActive := false
    currentFrameIndex := 0
    state := .stopped
    hasOnFrameChange := false }

/-- A looping clip used to put a manager into the `playing` state. -/
def idleClip : AnimationConfig :=
  { frames := ["i0", "i1"]
    frameDuration := 500
    loop := true
    hasOnComplete := false
    hasOnFrameChange := false }

/-- A manager currently playing `idleClip` at frame 1. -/
def playingManager : CharacterManager :=
  { animations := [("idle", idleClip)]
    currentAnimation := some idleClip
    timerActive := true
    currentFrameIndex := 1
    state := .playing
    hasOnFrameChange := true }

/-! ## Frame extractor (split.ts, class FrameExtractor) -/

/-- A decoded `HTMLImageElement` / canvas content, addressed by coordinates. -/
structure Sprite where
  width : Nat
  height : Nat
  pix : Nat → Nat → Color

/-- The `spritesheet` argument: `string | HTMLImageElement`. -/
inductive SheetSource where
  | url (s : String)
  | image (img : Sprite)

/-- The two private JS `Map`s of a `FrameExtractor` instance, as insertion-
ordered association lists. -/
structure ExtractorState where
  cache : List (String × List Sprite)
  imageCache : List (String × Sprite)

/-- `Map.get`/`Map.has` on an insertion-ordered association list. -/
def assocLookup {α β : Type} [DecidableEq α] : List (α × β) → α → Option β
  | [], _ => none
  | (k, v) :: rest, key => if k = key then some v else assocLookup rest key

/-- The fallback of the key expression: the source URL for a string source,
the fixed sentinel `"inline-image"` for an in-memory image. -/
def fallbackKey : SheetSource → String
  | .url s => s
  | .image _ => "inline-image"

/-- `const key = cacheKey || (typeof spritesheet === "string" ? spritesheet :
"inline-image")`; note `||` tests truthiness, so the empty string falls back
exactly like an absent `cacheKey`. -/
def resolveKey (cacheKey : Option String) (sheet : SheetSource) : String :=
  match cacheKey with
  | some k => if k = "" then fallbackKey sheet else k
  | none => fallbackKey sheet

/-- One canvas round-trip of the loop body: set the canvas to `fw × fh`,
`clearRect`, `drawImage(image, sx, sy, fw, fh, 0, 0, fw, fh)`, `toDataURL`.
A destination pixel outside the source image stays transparent. -/
def cropFrame (img : Sprite) (sx sy fw fh : Nat) : Sprite where
  width := fw
  height := fh
  pix := fun x y =>
    if x < fw ∧ y < fh ∧ sx + x < img.width ∧ sy + y < img.height then
      img.pix (sx + x) (sy + y)
    else ⟨0, 0, 0, 0⟩

/-- `Math.floor(n / d)` for a Nat numerator and an Int divisor.  For `d = 0`
JS yields `Infinity`/`NaN`; that value is represented by `0` here — it is
only ever consumed when the grid loops run, i.e. when `d ≥ 1`. -/
def jsGridDiv (n : Nat) (d : Int) : Int :=
  if d = 0 then 0 else Int.fdiv n d

/-- The two nested cropping loops of `extractFrames` (row-major).  For
non-positive `cols`/`rows` the corresponding JS `for` loop does not run, hence
`Int.toNat` on the loop bounds; `frameWidth`/`frameHeight` are clamped by
`toNat` only on paths where the loop body never reads them negatively. -/
def gridFrames (img : Sprite) (cols rows : Int) : List Sprite :=
  let frameWidth := (jsGridDiv img.width cols).toNat
  let frameHeight := (jsGridDiv img.height rows).toNat
  (List.range rows.toNat).flatMap fun row =>
    (List.range cols.toNat).map fun col =>
      cropFrame img (col * frameWidth) (row * frameHeight) frameWidth frameHeight

/-- Obtain the decoded image for a source: an in-memory image is used as-is;
a URL goes through the private `loadImage` with its `imageCache`, and a failed
decode rejects (`img.onerror`). `env` is the browser's decoder. -/
def loadSheet (env : String → Option Sprite) (st : ExtractorState) :
    SheetSource → Except String (Sprite × ExtractorState)
  | .image img => .ok (img, st)
  | .url s =>
      match assocLookup st.imageCache s with
      | some img => .ok (img, st)
      | none =>
          match env s with
          | some img => .ok (img, { st with imageCache := st.imageCache ++ [(s, img)] })
          | none => .error "Failed to load image"

/-- `FrameExtractor.extractFrames(spritesheet, cols, rows, cacheKey?)`:
resolve the key, return a cached sequence on a hit, otherwise load, crop the
grid, store the sequence under the key, and return it. -/
def extractFrames (env : String → Option Sprite) (st : ExtractorState)
    (sheet : SheetSource) (cols rows : Int) (cacheKey : Option String) :
    Except String (List Sprite × ExtractorState) :=
  let key := resolveKey cacheKey sheet
  match assocLookup st.cache key with
  | some frames => .ok (frames, st)
  | none =>
      match loadSheet env st sheet with
      | .error e => .error e
      | .ok (image, st1) =>
          let frames := gridFrames image cols rows
          .ok (frames, { st1 with cache := st1.cache ++ [(key, frames)] })

/-- A decoder environment that decodes nothing (only in-memory sources). -/
def env0 : String → Option Sprite := fun _ => none

/-- A fresh extractor instance. -/
def st0 : ExtractorState := ⟨[], []⟩

/-- A 1×1 in-memory image. -/
def imgA : Sprite := ⟨1, 1, fun _ _ => ⟨1, 2, 3, 4⟩⟩

/-- A different 1×1 in-memory image. -/
def imgB : Sprite := ⟨1, 1, fun _ _ => ⟨9, 9, 9, 9⟩⟩

/-- The frame sequence computed for `imgA` on a 1×1 grid. -/
def framesA : List Sprite := gridFrames imgA 1 1

/-- The extractor state after extracting `imgA` anonymously. -/
def stA : ExtractorState := ⟨[("inline-image", framesA)], []⟩

/-- A 4×4 in-memory sprite sheet. -/
def img4 : Sprite := ⟨4, 4, fun x y => ⟨x, y, 0, 255⟩⟩

/-! ## Flood-fill matte engine (removeBackgroud.ts) -/

/-- The `clamp` helper: `value < min ? min : value > max ? max : value`. -/
def jsClamp (value minV maxV : ℚ) : ℚ :=
  if value < minV then minV else if value > maxV then maxV else value

/-- `toleranceThreshold = (4 * 255²) * clampedTolerance²` with
`clampedTolerance = clamp(tolerancePercent, 0, 100) / 100`. -/
def toleranceThreshold (tolerancePercent : ℚ) : ℚ :=
  let clampedTolerance := jsClamp tolerancePercent 0 100 / 100
  4 * 255 * 255 * clampedTolerance * clampedTolerance

/-- Squared RGBA distance of a pixel to the background color
(`withinTolerance`'s `distanceSquared`). -/
def distSq (c bg : Color) : Int :=
  ((c.r : Int) - bg.r) * ((c.r : Int) - bg.r) +
  ((c.g : Int) - bg.g) * ((c.g : Int) - bg.g) +
  ((c.b : Int) - bg.b) * ((c.b : Int) - bg.b) +
  ((c.a : Int) - bg.a) * ((c.a : Int) - bg.a)

/-- `withinTolerance`: squared distance at most the threshold. -/
def withinTolerance (c bg : Color) (thr : ℚ) : Bool :=
  ((distSq c bg : ℚ) ≤ thr : Bool)

/-- `data[current + 3] = 0`: erase the alpha channel of one pixel. -/
def eraseAlpha (c : Color) : Color := { c with a := 0 }

/-- The mutable flood-fill state: the pixel data, the per-pixel visited
bitmap, and the worklist.  The source stack stores `dataIndex = 4 * p` and
pushes/pops at the array end; we store pixel indices and use the list head as
the stack top — the same LIFO discipline. -/
structure FillState where
  data : Nat → Color
  visited : Nat → Bool
  queue : List Nat

/-- `pushPixel(x, y)`: bounds check, visited check, tolerance check against
the current pixel data; a passing pixel is pushed and marked visited. -/
def pushPixel (w h : Nat) (bg : Color) (thr : ℚ) (s : FillState) (x y : Int) :
    FillState :=
  if x < 0 ∨ y < 0 ∨ x ≥ (w : Int) ∨ y ≥ (h : Int) then s
  else
    let p := y.toNat * w + x.toNat
    if s.visited p then s
    else if withinTolerance (s.data p) bg thr then
      { s with
        queue := p :: s.queue
        visited := fun q => if q = p then true else s.visited q }
    else s

/-- `neighborOffsets` (8-connectivity). -/
def neighborOffsets : List (Int × Int) :=
  [(1, 0), (-1, 0), (0, 1), (0, -1), (1, 1), (1, -1), (-1, 1), (-1, -1)]

/-- The `for (const [dx, dy] of neighborOffsets)` loop around pixel `p`. -/
def pushNeighbors (w h : Nat) (bg : Color) (thr : ℚ) (p : Nat)
    (L : List (Int × Int)) (t : FillState) : FillState :=
  L.foldl
    (fun t d => pushPixel w h bg thr t (((p % w : Nat) : Int) + d.1)
      (((p / w : Nat) : Int) + d.2)) t

/-- One iteration of the `while (queue.length)` loop: pop `p`, erase its
alpha, push the 8 neighbors of `(p % width, ⌊p / width⌋)`. -/
def popStep (w h : Nat) (bg : Color) (thr : ℚ) (p : Nat) (rest : List Nat)
    (s : FillState) : FillState :=
  pushNeighbors w h bg thr p neighborOffsets
    { data := fun q => if q = p then eraseAlpha (s.data q) else s.data q
      visited := s.visited
      queue := rest }

/-- The `while (queue.length)` loop, driven by explicit fuel.  Each iteration
strictly decreases `unvisitedCount + queue.length` (a push marks a fresh
pixel, a pop shortens the queue), so with enough fuel the loop runs to the
empty queue exactly as the unbounded source loop does. -/
def fillLoop (w h : Nat) (bg : Color) (thr : ℚ) : Nat → FillState → FillState
  | 0, s => s
  | fuel + 1, s =>
      match s.queue with
      | [] => s
      | p :: rest => fillLoop w h bg thr fuel (popStep w h bg thr p rest s)

/-- The first seeding loop: `pushPixel(x, 0); pushPixel(x, height - 1)` for
each column `x`. -/
def seedXFold (w h : Nat) (bg : Color) (thr : ℚ) (L : List Nat)
    (t : FillState) : FillState :=
  L.foldl
    (fun s x => pushPixel w h bg thr (pushPixel w h bg thr s x 0) x ((h : Int) - 1)) t

/-- The second seeding loop: `pushPixel(0, y); pushPixel(width - 1, y)` for
`y = i + 1`, one per loop iteration `i`. -/
def seedYFold (w h : Nat) (bg : Color) (thr : ℚ) (L : List Nat)
    (t : FillState) : FillState :=
  L.foldl
    (fun s i =>
      pushPixel w h bg thr (pushPixel w h bg thr s 0 ((i : Int) + 1))
        ((w : Int) - 1) ((i : Int) + 1)) t

/-- The two seeding loops: `pushPixel(x, 0)` and `pushPixel(x, height-1)` for
every column, then `pushPixel(0, y)` and `pushPixel(width-1, y)` for
`y = 1 .. height-2` (the JS loop `for (let y = 1; y < height - 1; y++)` runs
`height - 2` times). -/
def seedState (w h : Nat) (bg : Color) (thr : ℚ) (data0 : Nat → Color) :
    FillState :=
  seedYFold w h bg thr (List.range (h - 2))
    (seedXFold w h bg thr (List.range w) ⟨data0, fun _ => false, []⟩)

/-- Number of in-range pixels not yet visited (termination measure part). -/
def unvisitedCount (w h : Nat) (visited : Nat → Bool) : Nat :=
  ((Finset.range (w * h)).filter fun p => visited p = false).card

/-- Seed, then run the fill to completion.  `w*h + queue.length` over-counts
the strictly decreasing measure `unvisitedCount + queue.length`, so the fuel
suffices and the final queue is empty. -/
def matteRun (w h : Nat) (bg : Color) (thr : ℚ) (data0 : Nat → Color) :
    FillState :=
  let s1 := seedState w h bg thr data0
  fillLoop w h bg thr (w * h + s1.queue.length) s1

/-- The matte on a decoded image for a precomputed threshold (the body of
`removeBackgroud` after `toleranceThreshold` is computed): same dimensions,
alpha erased along the border-connected fill. -/
def matteThr (img : Img) (bg : Color) (thr : ℚ) : Img :=
  ⟨img.width, img.height, (matteRun img.width img.height bg thr img.data).data⟩

/-- The matte engine: given the background color and the tolerance percentage
it computes the threshold and runs the border flood fill. -/
def matte (img : Img) (bg : Color) (tolerancePercent : ℚ) : Img :=
  matteThr img bg (toleranceThreshold tolerancePercent)

/-- A pixel index is matchable when it is in range and its original color is
within the tolerance threshold of the background. -/
def Matchable (w h : Nat) (orig : Nat → Color) (bg : Color) (thr : ℚ)
    (p : Nat) : Prop :=
  p < w * h ∧ withinTolerance (orig p) bg thr = true

/-- `q` is the in-bounds pixel one `d`-offset away from `p`. -/
def AdjAt (w h p : Nat) (d : Int × Int) (q : Nat) : Prop :=
  0 ≤ ((p % w : Nat) : Int) + d.1 ∧ 0 ≤ ((p / w : Nat) : Int) + d.2 ∧
  ((p % w : Nat) : Int) + d.1 < (w : Int) ∧ ((p / w : Nat) : Int) + d.2 < (h : Int) ∧
  q = (((p / w : Nat) : Int) + d.2).toNat * w + (((p % w : Nat) : Int) + d.1).toNat

/-- 8-connectivity: `q` is an in-bounds neighbor of `p` in one of the eight
`neighborOffsets` directions. -/
def Adj (w h p q : Nat) : Prop := ∃ d ∈ neighborOffsets, AdjAt w h p d q

/-- A pixel on one of the four image borders. -/
def BorderPixel (w h p : Nat) : Prop :=
  p < w * h ∧ (p % w = 0 ∨ p % w = w - 1 ∨ p / w = 0 ∨ p / w = h - 1)

/-- A seed of the fill: a matchable border pixel. -/
def Seed (w h : Nat) (orig : Nat → Color) (bg : Color) (thr : ℚ) (p : Nat) :
    Prop :=
  BorderPixel w h p ∧ Matchable w h orig bg thr p

/-- One step of a background-colored chain: an 8-neighbor that is matchable. -/
def ReachStep (w h : Nat) (orig : Nat → Color) (bg : Color) (thr : ℚ)
    (a b : Nat) : Prop :=
  Adj w h a b ∧ Matchable w h orig bg thr b

/-- A pixel reachable from some matchable border pixel through a chain of
8-connected matchable pixels. -/
def Reachable (w h : Nat) (orig : Nat → Color) (bg : Color) (thr : ℚ)
    (p : Nat) : Prop :=
  ∃ s0, Seed w h orig bg thr s0 ∧
    Relation.ReflTransGen (ReachStep w h orig bg thr) s0 p

/-- The loop invariant maintained across every `pushPixel`: visited pixels
are matchable and reachable, queued pixels are visited and pairwise distinct,
and the data differs from the original exactly on the erased (visited and
dequeued) pixels. -/
structure PartialInv (w h : Nat) (orig : Nat → Color) (bg : Color) (thr : ℚ)
    (s : FillState) : Prop where
  vis_match : ∀ p, s.visited p = true → Matchable w h orig bg thr p
  data_eq : ∀ p, s.data p =
    if s.visited p = true ∧ p ∉ s.queue then eraseAlpha (orig p) else orig p
  queue_vis : ∀ p ∈ s.queue, s.visited p = true
  vis_reach : ∀ p, s.visited p = true → Reachable w h orig bg thr p
  qnodup : s.queue.Nodup

/-- The full invariant between loop iterations: additionally every processed
(visited, dequeued) pixel has all its matchable neighbors visited, and every
seed is visited. -/
structure FillInv (w h : Nat) (orig : Nat → Color) (bg : Color) (thr : ℚ)
    (s : FillState) extends PartialInv w h orig bg thr s : Prop where
  processed_closed : ∀ p q, s.visited p = true → p ∉ s.queue →
    Adj w h p q → Matchable w h orig bg thr q → s.visited q = true
  seeds_vis : ∀ p, Seed w h orig bg thr p → s.visited p = true

/-- Number of pixels whose alpha is zero after the matte. -/
def erasedCount (img : Img) (bg : Color) (tolerancePercent : ℚ) : Nat :=
  ((Finset.range (img.width * img.height)).filter
    fun p => ((matte img bg tolerancePercent).data p).a = 0).card

/-- Opaque white. -/
def whiteColor : Color := ⟨255, 255, 255, 255⟩

/-- A 1×1 all-white image (used to instantiate the matte theorems). -/
def white1 : Img := ⟨1, 1, fun _ => whiteColor⟩

/-! ## Background color estimator (sampleBackgroundColor) -/

/-- `quantize(value, step) = Math.floor(value / step)`. -/
def quantize (value step : Nat) : Nat := value / step

/-- The quantized bucket key `r/16, g/16, b/16, a/32` (the source joins the
four quantized numbers into a string key; the tuple is in bijection with that
string). -/
def bucketKey (c : Color) : Nat × Nat × Nat × Nat :=
  (quantize c.r 16, quantize c.g 16, quantize c.b 16, quantize c.a 32)

/-- A sampling bucket: count and per-channel sums. -/
structure Bucket where
  count : Nat
  sumR : Nat
  sumG : Nat
  sumB : Nat
  sumA : Nat
deriving DecidableEq, Repr

/-- The `buckets` map in insertion order. -/
abbrev BucketMap := List ((Nat × Nat × Nat × Nat) × Bucket)

/-- Accumulate one sample into an existing bucket. -/
def bumpBucket (b : Bucket) (c : Color) : Bucket :=
  ⟨b.count + 1, b.sumR + c.r, b.sumG + c.g, b.sumB + c.b, b.sumA + c.a⟩

/-- A fresh bucket holding one sample. -/
def initBucket (c : Color) : Bucket := ⟨1, c.r, c.g, c.b, c.a⟩

/-- The body of `registerPixel` after the index guard: bump the existing
bucket in place (position preserved) or append a new one. -/
def addSample (m : BucketMap) (c : Color) : BucketMap :=
  match assocLookup m (bucketKey c) with
  | some _ => m.map fun kv => if kv.1 = bucketKey c then (kv.1, bumpBucket kv.2 c) else kv
  | none => m ++ [(bucketKey c, initBucket c)]

/-- `registerPixel`: the guard `index < 0 || index + 3 >= data.length`
rejects exactly the pixel indices `p ≥ width * height`. -/
def registerPixel (img : Img) (m : BucketMap) (p : Nat) : BucketMap :=
  if p < img.width * img.height then addSample m (img.data p) else m

/-- `registerCoordinate(x, y)` with its bounds guard. -/
def registerCoordinate (img : Img) (m : BucketMap) (x y : Int) : BucketMap :=
  if x < 0 ∨ y < 0 ∨ x ≥ (img.width : Int) ∨ y ≥ (img.height : Int) then m
  else registerPixel img m (y.toNat * img.width + x.toNat)

/-- The two sampling loops: for every column the rows
`0, min(1, h-1), h-1, max(h-2, 0)`; for every row the columns
`0, min(1, w-1), w-1, max(w-2, 0)`. -/
def buildBuckets (img : Img) : BucketMap :=
  let m1 := (List.range img.width).foldl
    (fun m x =>
      registerCoordinate img
        (registerCoordinate img
          (registerCoordinate img
            (registerCoordinate img m x 0)
            x (min 1 ((img.height : Int) - 1)))
          x ((img.height : Int) - 1))
        x (max ((img.height : Int) - 2) 0)) []
  (List.range img.height).foldl
    (fun m y =>
      registerCoordinate img
        (registerCoordinate img
          (registerCoordinate img
            (registerCoordinate img m 0 y)
            (min 1 ((img.width : Int) - 1)) y)
          ((img.width : Int) - 1) y)
        (max ((img.width : Int) - 2) 0) y) m1

/-- The dominant-bucket scan: first bucket to reach the maximal count wins
(iteration in insertion order, strict `>` comparison). -/
def selectDominant (m : BucketMap) : Option Bucket :=
  m.foldl
    (fun dom kv =>
      match dom with
      | none => some kv.2
      | some d => if kv.2.count > d.count then some kv.2 else some d) none

/-- `Math.round(num / den)` for naturals (`den > 0`): round half up. -/
def jsRound (num den : Nat) : Nat := (2 * num + den) / (2 * den)

/-- `sampleBackgroundColor(imageData, override)`: the override wins; a
degenerate or empty sample set yields opaque white; otherwise the mean of the
dominant border bucket, rounded per channel. -/
def sampleBackgroundColor (img : Img) (override : Option Color) : Color :=
  match override with
  | some c => c
  | none =>
      if img.width = 0 ∨ img.height = 0 then ⟨255, 255, 255, 255⟩
      else
        let buckets := buildBuckets img
        if buckets = [] then ⟨255, 255, 255, 255⟩
        else
          match selectDominant buckets with
          | none => ⟨255, 255, 255, 255⟩
          | some b =>
              ⟨jsRound b.sumR b.count, jsRound b.sumG b.count,
                jsRound b.sumB b.count, jsRound b.sumA b.count⟩

/-- A 10×10 image whose outermost ring is uniformly `(10,10,10,255)` and
whose interior comes from a noise function of the coordinates. -/
def borderNoiseImage (noise : Nat → Nat → Color) : Img :=
  ⟨10, 10, fun p =>
    if p % 10 = 0 ∨ p % 10 = 9 ∨ p / 10 = 0 ∨ p / 10 = 9 then ⟨10, 10, 10, 255⟩
    else noise (p % 10) (p / 10)⟩

/-- The 80 sampled coordinates of `buildBuckets` on a 10×10 image, in
registration order: per column the rows `0, 1, 9, 8`, then per row the
columns `0, 1, 9, 8`. -/
def sampleCoords10 : List (Nat × Nat) :=
  [(0, 0), (0, 1), (0, 9), (0, 8),
    (1, 0), (1, 1), (1, 9), (1, 8),
    (2, 0), (2, 1), (2, 9), (2, 8),
    (3, 0), (3, 1), (3, 9), (3, 8),
    (4, 0), (4, 1), (4, 9), (4, 8),
    (5, 0), (5, 1), (5, 9), (5, 8),
    (6, 0), (6, 1), (6, 9), (6, 8),
    (7, 0), (7, 1), (7, 9), (7, 8),
    (8, 0), (8, 1), (8, 9), (8, 8),
    (9, 0), (9, 1), (9, 9), (9, 8),
    (0, 0), (1, 0), (9, 0), (8, 0),
    (0, 1), (1, 1), (9, 1), (8, 1),
    (0, 2), (1, 2), (9, 2), (8, 2),
    (0, 3), (1, 3), (9, 3), (8, 3),
    (0, 4), (1, 4), (9, 4), (8, 4),
    (0, 5), (1, 5), (9, 5), (8, 5),
    (0, 6), (1, 6), (9, 6), (8, 6),
    (0, 7), (1, 7), (9, 7), (8, 7),
    (0, 8), (1, 8), (9, 8), (8, 8),
    (0, 9), (1, 9), (9, 9), (8, 9)]

/-- The sampled color at a coordinate pair. -/
def sampleAt (img : Img) (c : Nat × Nat) : Color := img.data (c.2 * 10 + c.1)

/-- Total number of samples registered in a bucket map. -/
def totalCount (m : BucketMap) : Nat := (m.map fun kv => kv.2.count).sum

/-- Pairwise-distinct bucket keys. -/
def KeysNodup (m : BucketMap) : Prop := (m.map Prod.fst).Nodup

/-- Folding one more sample into an optional bucket. -/
def mergeSample (ob : Option Bucket) (c : Color) : Option Bucket :=
  match ob with
  | none => some (initBucket c)
  | some b => some (bumpBucket b c)

/-- The bucket accumulated by `n` samples of the border color
`(10,10,10,255)`. -/
def c0Bucket (n : Nat) : Bucket := ⟨n, 10 * n, 10 * n, 10 * n, 255 * n⟩

/-- Invariant carried through the sampling loops on `borderNoiseImage`:
distinct keys, at most `t` samples so far, and the border bucket `(0,0,0,7)`
holding exactly `n` samples of the border color. -/
def EstInv (m : BucketMap) (n t : Nat) : Prop :=
  KeysNodup m ∧ totalCount m ≤ t ∧
    assocLookup m (0, 0, 0, 7) = (if n = 0 then none else some (c0Bucket n))

/-- Number of border-ring samples contributed by one loop iteration of the
10×10 sampler: 4 at the extreme columns/rows, else 2. -/
def ringCnt (x : Nat) : Nat := if x = 0 ∨ x = 9 then 4 else 2

/-- A concrete pseudo-random interior (alpha fixed at 96, so its bucket can
never collide with the border's alpha bucket 7). -/
def concreteNoise (x y : Nat) : Color :=
  ⟨(37 * x + 91 * y + 13) % 256, (55 * x * x + 3 * y + 201) % 256,
    (5 * x + 89 * y * y + 77) % 256, 96⟩

end AIComp

namespace AIComp

/-! ## Theorems: animation playback engine -/

/-- C1: the source stops the engine on the final tick of a non-looping clip
but then throws a TypeError reading `onComplete` on the just-cleared
`currentAnimation`, so `onComplete` is never invoked — and a 3-frame
non-looping clip emits only 2 `onFrameChange` events (indices 1 and 2),
not 3.  This theorem records the code behavior on the claim's own scenario:
play `"talking"` and let the timer run. -/
theorem c1_code_behavior :
    runTicks 10 (playAnimation talkingManager "talking" true) =
      (stopAnimation talkingManager,
        [AnimEvent.frameChange 1, AnimEvent.frameChange 2], true) ∧
    (stopAnimation talkingManager).state = CharacterState.stopped ∧
    AnimEvent.complete ∉ [AnimEvent.frameChange 1, AnimEvent.frameChange 2] := by
  refine ⟨by decide, by decide, by decide⟩

/-- C4 counterexample: calling `play` with a missing name from the `playing`
state is not a no-op — the engine is torn down to `stopped`, the active clip
is cleared and the frame index is reset, contradicting the claim that state,
clip and index are unchanged regardless of the starting state. -/
theorem c4_counterexample :
    playingManager.state = CharacterState.playing ∧
    (playAnimation playingManager "x" false).state = CharacterState.stopped ∧
    (playAnimation playingManager "x" false).currentAnimation = none ∧
    (playAnimation playingManager "x" false).currentFrameIndex = 0 := by
  refine ⟨by decide, by decide, by decide, by decide⟩

/-- C4 (amended): `play` with a missing name first performs the active-clip
teardown and only then warns and returns: if a clip was active the engine ends
up exactly in the stopped configuration, and if no clip was active (in
particular from `Stopped`) the manager is left completely unchanged. -/
theorem c4_amended_missing_name (s : CharacterManager) (name : String)
    (cb : Bool) (h : findAnimation s.animations name = none) :
    playAnimation s name cb =
      if s.currentAnimation.isSome then stopAnimation s else s := by
  unfold playAnimation
  cases hs : s.currentAnimation.isSome <;>
    simp only [hs, if_true, if_false] <;>
    simp [stopAnimation, h]

/-- C4 witness: from `Stopped` (no active clip), `play("x")` for a missing
name leaves the manager unchanged. -/
theorem c4_witness :
    findAnimation talkingManager.animations "x" = none ∧
    playAnimation talkingManager "x" false = talkingManager := by
  refine ⟨by decide, ?_⟩
  have h := c4_amended_missing_name talkingManager "x" false (by decide)
  simpa [talkingManager] using h

/-! ## Theorems: frame extractor -/

/-- Looking a key up in a concatenation when the first part misses. -/
theorem assocLookup_append {α β : Type} [DecidableEq α]
    (l1 l2 : List (α × β)) (k : α)
    (h : assocLookup l1 k = none) :
    assocLookup (l1 ++ l2) k = assocLookup l2 k := by
  induction l1 with
  | nil => rfl
  | cons hd tl ih =>
      obtain ⟨k1, v1⟩ := hd
      by_cases hk : k1 = k
      · simp [assocLookup, hk] at h
      · simp only [assocLookup, List.cons_append, if_neg hk] at h ⊢
        exact ih h

/-- C10: an explicit empty-string `cacheKey` resolves exactly like an absent
one, because the source tests the key's truthiness (`cacheKey || …`): the key
falls back to the URL string or to the `"inline-image"` sentinel. -/
theorem c10_empty_cache_key (env : String → Option Sprite)
    (st : ExtractorState) (sheet : SheetSource) (cols rows : Int) :
    extractFrames env st sheet cols rows (some "") =
      extractFrames env st sheet cols rows none := rfl

/-- C3 counterexample: two successive anonymous in-memory extractions both
resolve to the sentinel key, so the second call is a cache hit returning the
first call's stored sequence — even though recomputation on its own image
would have produced different frames. -/
theorem c3_counterexample :
    extractFrames env0 st0 (.image imgA) 1 1 none = .ok (framesA, stA) ∧
    extractFrames env0 stA (.image imgB) 1 1 none = .ok (framesA, stA) ∧
    framesA ≠ gridFrames imgB 1 1 := by
  refine ⟨rfl, rfl, fun h => ?_⟩
  exact absurd
    (congrArg (fun l => ((l.headD ⟨0, 0, fun _ _ => ⟨0, 0, 0, 0⟩⟩).pix 0 0).r) h)
    (by decide)

/-- C3 (amended): for two successive anonymous in-memory `extractFrames`
calls, the second call is always a cache hit: both calls resolve to the fixed
sentinel key `"inline-image"`, so the second returns the sequence stored by
the first call (and leaves the state untouched) instead of recomputing. -/
theorem c3_amended_inline_hit (env : String → Option Sprite)
    (st : ExtractorState) (img1 img2 : Sprite) (c1 r1 c2 r2 : Int)
    (fs1 : List Sprite) (st1 : ExtractorState)
    (hmiss : assocLookup st.cache "inline-image" = none)
    (h1 : extractFrames env st (.image img1) c1 r1 none = .ok (fs1, st1)) :
    extractFrames env st1 (.image img2) c2 r2 none = .ok (fs1, st1) := by
  unfold extractFrames at h1
  simp only [resolveKey, fallbackKey, loadSheet, hmiss] at h1
  injection h1 with h2
  injection h2 with hfs hst
  subst hfs
  subst hst
  unfold extractFrames
  simp only [resolveKey, fallbackKey]
  rw [assocLookup_append st.cache _ _ hmiss]
  simp [assocLookup]

/-- C3 witness: the amended behavior at a concrete pair of anonymous calls. -/
theorem c3_witness :
    extractFrames env0 stA (.image imgB) 1 1 none = .ok (framesA, stA) :=
  c3_amended_inline_hit env0 st0 imgA imgB 1 1 1 1 framesA stA rfl rfl

/-- `Math.floor(n / c)` for a positive Int divisor is Nat division. -/
theorem jsGridDiv_toNat (n : Nat) (c : Int) (h : 1 ≤ c) :
    (jsGridDiv n c).toNat = n / c.toNat := by
  have hne : c ≠ 0 := by omega
  unfold jsGridDiv
  rw [if_neg hne]
  have hcast : c = ((c.toNat : Nat) : Int) := (Int.toNat_of_nonneg (by omega)).symm
  rw [hcast, Int.fdiv_eq_tdiv (by exact_mod_cast Nat.zero_le n)
    (by exact_mod_cast Nat.zero_le c.toNat), ← Int.ofNat_tdiv]
  exact Int.toNat_ofNat _

/-- A row-major double loop flattens to a single map over the index range. -/
theorem flatMap_grid {α : Type} (g : Nat → Nat → α) (n m : Nat) (hm : 0 < m) :
    ((List.range n).flatMap fun r => (List.range m).map (g r)) =
      (List.range (n * m)).map fun i => g (i / m) (i % m) := by
  induction n with
  | zero => simp
  | succ n ih =>
      rw [List.range_succ, List.flatMap_append, ih, Nat.succ_mul, List.range_add,
        List.map_append, List.map_map]
      congr 1
      simp only [List.flatMap_cons, List.flatMap_nil, List.append_nil]
      apply List.map_congr_left
      intro j hj
      have hj' : j < m := List.mem_range.mp hj
      have h1 : (n * m + j) / m = n := by
        rw [mul_comm, Nat.mul_add_div hm, Nat.div_eq_of_lt hj', Nat.add_zero]
      have h2 : (n * m + j) % m = j := by
        rw [mul_comm, Nat.mul_add_mod, Nat.mod_eq_of_lt hj']
      simp [Function.comp, h1, h2]

/-- For a valid grid the crop loops are a map over row-major frame indices. -/
theorem gridFrames_eq_map (img : Sprite) (cols rows : Int)
    (hc : 1 ≤ cols) (hr : 1 ≤ rows) :
    gridFrames img cols rows =
      (List.range (rows.toNat * cols.toNat)).map fun i =>
        cropFrame img ((i % cols.toNat) * (img.width / cols.toNat))
          ((i / cols.toNat) * (img.height / rows.toNat))
          (img.width / cols.toNat) (img.height / rows.toNat) := by
  have hc0 : 0 < cols.toNat := by omega
  simp only [gridFrames]
  rw [jsGridDiv_toNat _ _ hc, jsGridDiv_toNat _ _ hr]
  exact flatMap_grid _ _ _ hc0

/-- C5: on a cache miss with a decodable source and `cols, rows ≥ 1`,
`extractFrames` computes, caches and returns exactly `cols * rows` frames in
row-major order; the frame at index `row * cols + col` is the
`frameWidth × frameHeight` crop at `(col * frameWidth, row * frameHeight)`
with `frameWidth = ⌊width / cols⌋`, `frameHeight = ⌊height / rows⌋`, and the
crops jointly cover at most `cols * frameWidth ≤ width` columns and
`rows * frameHeight ≤ height` rows, so right/bottom remainder pixels appear
in no frame. -/
theorem c5_grid_extraction (env : String → Option Sprite)
    (st : ExtractorState) (sheet : SheetSource) (cols rows : Int)
    (ck : Option String) (img : Sprite) (st1 : ExtractorState)
    (hc : 1 ≤ cols) (hr : 1 ≤ rows)
    (hmiss : assocLookup st.cache (resolveKey ck sheet) = none)
    (hload : loadSheet env st sheet = .ok (img, st1)) :
    extractFrames env st sheet cols rows ck =
      .ok (gridFrames img cols rows,
        { st1 with
          cache := st1.cache ++ [(resolveKey ck sheet, gridFrames img cols rows)] }) ∧
    (gridFrames img cols rows).length = cols.toNat * rows.toNat ∧
    (∀ row col, row < rows.toNat → col < cols.toNat →
      (gridFrames img cols rows)[row * cols.toNat + col]? =
        some (cropFrame img (col * (img.width / cols.toNat))
          (row * (img.height / rows.toNat))
          (img.width / cols.toNat) (img.height / rows.toNat))) ∧
    cols.toNat * (img.width / cols.toNat) ≤ img.width ∧
    rows.toNat * (img.height / rows.toNat) ≤ img.height := by
  refine ⟨?_, ?_, ?_, ?_, ?_⟩
  · simp only [extractFrames, hmiss, hload]
  · rw [gridFrames_eq_map img cols rows hc hr]
    simp [Nat.mul_comm]
  · intro row col hrow hcol
    rw [gridFrames_eq_map img cols rows hc hr, List.getElem?_map]
    have hlt : row * cols.toNat + col < rows.toNat * cols.toNat := by
      have h1 : row * cols.toNat + col < (row + 1) * cols.toNat := by
        rw [Nat.succ_mul]; omega
      have h2 : (row + 1) * cols.toNat ≤ rows.toNat * cols.toNat :=
        Nat.mul_le_mul_right _ hrow
      omega
    rw [List.getElem?_range hlt]
    have hmod : (row * cols.toNat + col) % cols.toNat = col := by
      rw [mul_comm, Nat.mul_add_mod, Nat.mod_eq_of_lt hcol]
    have hdiv : (row * cols.toNat + col) / cols.toNat = row := by
      rw [mul_comm, Nat.mul_add_div (by omega), Nat.div_eq_of_lt hcol, Nat.add_zero]
    simp [hmod, hdiv]
  · rw [mul_comm]; exact Nat.div_mul_le_self _ _
  · rw [mul_comm]; exact Nat.div_mul_le_self _ _

/-- C5 witness: a concrete 4×4 sheet cut 2×2 yields 4 frames. -/
theorem c5_witness :
    (1 : Int) ≤ 2 ∧
    (gridFrames img4 2 2).length = (2 : Int).toNat * (2 : Int).toNat :=
  ⟨by decide,
    (c5_grid_extraction env0 st0 (.image img4) 2 2 none img4 st0
      (by decide) (by decide) rfl rfl).2.1⟩

/-- A non-positive grid dimension makes the crop loops produce no frame. -/
theorem gridFrames_nil (img : Sprite) (cols rows : Int)
    (h : cols ≤ 0 ∨ rows ≤ 0) : gridFrames img cols rows = [] := by
  unfold gridFrames
  rcases h with h | h
  · have hc : cols.toNat = 0 := by omega
    simp [hc]
  · have hr : rows.toNat = 0 := by omega
    simp [hr]

/-- C6 counterexample: with `cols = 0` the source neither validates nor
throws — it returns an empty frame sequence and stores it in the cache under
the resolved key, contradicting "fails fast and stores nothing". -/
theorem c6_counterexample :
    extractFrames env0 st0 (.image img4) 0 1 none =
      .ok ([], ⟨[("inline-image", [])], []⟩) := rfl

/-- C6 (amended): `extractFrames` performs no validation of `cols`/`rows`:
with `cols ≤ 0` or `rows ≤ 0` (on a cache miss with a loadable source) it
returns an empty frame sequence and caches it under the resolved key. -/
theorem c6_amended_no_validation (env : String → Option Sprite)
    (st : ExtractorState) (sheet : SheetSource) (cols rows : Int)
    (ck : Option String) (img : Sprite) (st1 : ExtractorState)
    (hcr : cols ≤ 0 ∨ rows ≤ 0)
    (hmiss : assocLookup st.cache (resolveKey ck sheet) = none)
    (hload : loadSheet env st sheet = .ok (img, st1)) :
    extractFrames env st sheet cols rows ck =
      .ok ([], { st1 with cache := st1.cache ++ [(resolveKey ck sheet, [])] }) := by
  have hnil := gridFrames_nil img cols rows hcr
  simp only [extractFrames, hmiss, hload, hnil]

/-- C6 witness: the amended behavior at `rows = 0` on a concrete sheet. -/
theorem c6_witness :
    ((3 : Int) ≤ 0 ∨ (0 : Int) ≤ 0) ∧
    extractFrames env0 st0 (.image img4) 3 0 none =
      .ok ([], ⟨[("inline-image", [])], []⟩) :=
  ⟨Or.inr (by decide),
    c6_amended_no_validation env0 st0 (.image img4) 3 0 none img4 st0
      (Or.inr (by decide)) rfl rfl⟩

/-! ## Theorems: flood-fill matte engine -/

section MatteProofs

variable (w h : Nat) (orig : Nat → Color) (bg : Color) (thr : ℚ)

/-- Index of an in-bounds coordinate pair is in range. -/
theorem coord_lt {x y : Nat} (hx : x < w) (hy : y < h) : y * w + x < w * h := by
  have h1 : y * w + x < (y + 1) * w := by rw [Nat.succ_mul]; omega
  have h2 : (y + 1) * w ≤ h * w := Nat.mul_le_mul_right _ hy
  have h3 : h * w = w * h := Nat.mul_comm _ _
  omega

/-- Every reachable pixel is itself matchable (chains end in matchable
pixels, and seeds are matchable). -/
theorem reachable_matchable {p : Nat}
    (hr : Reachable w h orig bg thr p) : Matchable w h orig bg thr p := by
  obtain ⟨s0, hs, hchain⟩ := hr
  induction hchain with
  | refl => exact hs.2
  | tail _ hstep _ => exact hstep.2

/-- Reachability extends along a matchable 8-neighbor. -/
theorem reachable_closure {p q : Nat}
    (hr : Reachable w h orig bg thr p) (hadj : Adj w h p q)
    (hm : Matchable w h orig bg thr q) : Reachable w h orig bg thr q := by
  obtain ⟨s0, hs, hchain⟩ := hr
  exact ⟨s0, hs, hchain.tail ⟨hadj, hm⟩⟩

/-- Marking one unvisited in-range pixel decrements the unvisited count. -/
theorem unvisitedCount_mark (s : Nat → Bool) (p : Nat) (hp : p < w * h)
    (hv : s p = false) :
    unvisitedCount w h (fun q => if q = p then true else s q) + 1 =
      unvisitedCount w h s := by
  unfold unvisitedCount
  have hset :
      ((Finset.range (w * h)).filter fun q => (if q = p then true else s q) = false) =
        ((Finset.range (w * h)).filter fun q => s q = false).erase p := by
    ext q
    simp only [Finset.mem_filter, Finset.mem_erase, Finset.mem_range]
    constructor
    · rintro ⟨hq, hval⟩
      by_cases hqp : q = p
      · subst hqp; simp at hval
      · exact ⟨hqp, hq, by simpa [hqp] using hval⟩
    · rintro ⟨hqp, hq, hval⟩
      exact ⟨hq, by simpa [hqp] using hval⟩
  rw [hset]
  have hmem : p ∈ (Finset.range (w * h)).filter fun q => s q = false := by
    simp [Finset.mem_filter, Finset.mem_range, hp, hv]
  rw [Finset.card_erase_of_mem hmem]
  have hpos : 0 < ((Finset.range (w * h)).filter fun q => s q = false).card :=
    Finset.card_pos.mpr ⟨p, hmem⟩
  omega

/-- The unvisited count never exceeds the pixel count. -/
theorem unvisitedCount_le (s : Nat → Bool) : unvisitedCount w h s ≤ w * h := by
  calc unvisitedCount w h s ≤ (Finset.range (w * h)).card :=
        Finset.card_filter_le _ _
    _ = w * h := Finset.card_range _

/-- `pushPixel` case analysis: out of bounds, already visited, or not
matchable by the current data (all leave the state unchanged), or the target
is pushed and marked. -/
theorem pushPixel_cases (s : FillState) (x y : Int) :
    ((x < 0 ∨ y < 0 ∨ x ≥ (w : Int) ∨ y ≥ (h : Int)) ∧
      pushPixel w h bg thr s x y = s) ∨
    (0 ≤ x ∧ 0 ≤ y ∧ x < (w : Int) ∧ y < (h : Int) ∧
      s.visited (y.toNat * w + x.toNat) = true ∧
      pushPixel w h bg thr s x y = s) ∨
    (0 ≤ x ∧ 0 ≤ y ∧ x < (w : Int) ∧ y < (h : Int) ∧
      s.visited (y.toNat * w + x.toNat) = false ∧
      withinTolerance (s.data (y.toNat * w + x.toNat)) bg thr = false ∧
      pushPixel w h bg thr s x y = s) ∨
    (0 ≤ x ∧ 0 ≤ y ∧ x < (w : Int) ∧ y < (h : Int) ∧
      s.visited (y.toNat * w + x.toNat) = false ∧
      withinTolerance (s.data (y.toNat * w + x.toNat)) bg thr = true ∧
      pushPixel w h bg thr s x y =
        { s with
          queue := (y.toNat * w + x.toNat) :: s.queue
          visited := fun q => if q = y.toNat * w + x.toNat then true else s.visited q }) := by
  unfold pushPixel
  by_cases hb : x < 0 ∨ y < 0 ∨ x ≥ (w : Int) ∨ y ≥ (h : Int)
  · exact Or.inl ⟨hb, by rw [if_pos hb]⟩
  · rw [if_neg hb]
    push_neg at hb
    obtain ⟨hx0, hy0, hxw, hyh⟩ := hb
    by_cases hv : s.visited (y.toNat * w + x.toNat) = true
    · exact Or.inr (Or.inl ⟨hx0, hy0, hxw, hyh, hv, by simp [hv]⟩)
    · have hv' : s.visited (y.toNat * w + x.toNat) = false := by
        simpa using hv
      cases hw : withinTolerance (s.data (y.toNat * w + x.toNat)) bg thr
      · refine Or.inr (Or.inr (Or.inl ⟨hx0, hy0, hxw, hyh, hv', rfl, ?_⟩))
        rw [if_neg hv]
        simp [hw]
      · refine Or.inr (Or.inr (Or.inr ⟨hx0, hy0, hxw, hyh, hv', rfl, ?_⟩))
        rw [if_neg hv]
        simp [hw]

/-- Complete effect of one `pushPixel` on the partial invariant: the
invariant is preserved, visited pixels and queue membership only grow, newly
visited pixels sit in the queue, an in-bounds matchable target ends up
visited, the measure `unvisitedCount + queue.length` is exactly preserved,
and the pixel data is untouched. -/
theorem pushPixel_pred (t : FillState) (x y : Int)
    (hpred : PartialInv w h orig bg thr t)
    (hreach : ∀ q, 0 ≤ x → 0 ≤ y → x < (w : Int) → y < (h : Int) →
      q = y.toNat * w + x.toNat → Matchable w h orig bg thr q →
      Reachable w h orig bg thr q) :
    PartialInv w h orig bg thr (pushPixel w h bg thr t x y) ∧
    (∀ q, t.visited q = true → (pushPixel w h bg thr t x y).visited q = true) ∧
    (∀ q, q ∈ t.queue → q ∈ (pushPixel w h bg thr t x y).queue) ∧
    (∀ q, (pushPixel w h bg thr t x y).visited q = true →
      t.visited q = true ∨ q ∈ (pushPixel w h bg thr t x y).queue) ∧
    (0 ≤ x → 0 ≤ y → x < (w : Int) → y < (h : Int) →
      ∀ q, q = y.toNat * w + x.toNat → Matchable w h orig bg thr q →
        (pushPixel w h bg thr t x y).visited q = true) ∧
    (unvisitedCount w h (pushPixel w h bg thr t x y).visited +
        (pushPixel w h bg thr t x y).queue.length =
      unvisitedCount w h t.visited + t.queue.length) ∧
    (pushPixel w h bg thr t x y).data = t.data := by
  rcases pushPixel_cases w h bg thr t x y with
    ⟨hoob, heq⟩ | ⟨hx0, hy0, hxw, hyh, hv, heq⟩ |
    ⟨hx0, hy0, hxw, hyh, hv, hw, heq⟩ | ⟨hx0, hy0, hxw, hyh, hv, hw, heq⟩
  · rw [heq]
    refine ⟨hpred, fun q hq => hq, fun q hq => hq, fun q hq => Or.inl hq,
      ?_, rfl, rfl⟩
    intro hx0 hy0 hxw hyh q hq hm
    rcases hoob with hoob | hoob | hoob | hoob <;> omega
  · rw [heq]
    refine ⟨hpred, fun q hq => hq, fun q hq => hq, fun q hq => Or.inl hq,
      ?_, rfl, rfl⟩
    intro _ _ _ _ q hq hm
    subst hq
    exact hv
  · rw [heq]
    refine ⟨hpred, fun q hq => hq, fun q hq => hq, fun q hq => Or.inl hq,
      ?_, rfl, rfl⟩
    intro _ _ _ _ q hq hm
    subst hq
    have hd := hpred.data_eq (y.toNat * w + x.toNat)
    rw [if_neg (by rintro ⟨hvis, _⟩; rw [hv] at hvis; cases hvis)] at hd
    rw [hd] at hw
    rw [hm.2] at hw
    cases hw
  · -- the push case
    have hxnat : x.toNat < w := by omega
    have hynat : y.toNat < h := by omega
    have hp : y.toNat * w + x.toNat < w * h := coord_lt w h hxnat hynat
    have hdata : t.data (y.toNat * w + x.toNat) = orig (y.toNat * w + x.toNat) := by
      have hd := hpred.data_eq (y.toNat * w + x.toNat)
      rw [if_neg (by rintro ⟨hvis, _⟩; rw [hv] at hvis; cases hvis)] at hd
      exact hd
    have hmatch : Matchable w h orig bg thr (y.toNat * w + x.toNat) :=
      ⟨hp, by rw [← hdata]; exact hw⟩
    have hreachp : Reachable w h orig bg thr (y.toNat * w + x.toNat) :=
      hreach _ hx0 hy0 hxw hyh rfl hmatch
    have hnotq : y.toNat * w + x.toNat ∉ t.queue := by
      intro hmem
      have := hpred.queue_vis _ hmem
      rw [hv] at this
      cases this
    rw [heq]
    refine ⟨?_, ?_, ?_, ?_, ?_, ?_, rfl⟩
    · refine ⟨?_, ?_, ?_, ?_, ?_⟩
      · intro q hq
        by_cases hqp : q = y.toNat * w + x.toNat
        · subst hqp; exact hmatch
        · simp only [if_neg hqp] at hq
          exact hpred.vis_match q hq
      · intro q
        show t.data q = _
        rw [hpred.data_eq q]
        by_cases hqp : q = y.toNat * w + x.toNat
        · subst hqp
          rw [if_neg (by rintro ⟨hvis, _⟩; rw [hv] at hvis; cases hvis),
            if_neg (by rintro ⟨_, hmem⟩; exact hmem (List.mem_cons_self _ _))]
        · refine if_congr ?_ rfl rfl
          constructor
          · rintro ⟨hvis, hmem⟩
            refine ⟨by simpa [hqp] using hvis, ?_⟩
            intro hmem2
            rcases List.mem_cons.mp hmem2 with h1 | h1
            · exact hqp h1
            · exact hmem h1
          · rintro ⟨hvis, hmem⟩
            refine ⟨by simpa [hqp] using hvis, ?_⟩
            intro hmem2
            exact hmem (List.mem_cons_of_mem _ hmem2)
      · intro q hq
        rcases List.mem_cons.mp hq with h1 | h1
        · subst h1; simp
        · by_cases hqp : q = y.toNat * w + x.toNat
          · subst hqp; simp
          · simp only [if_neg hqp]
            exact hpred.queue_vis q h1
      · intro q hq
        by_cases hqp : q = y.toNat * w + x.toNat
        · subst hqp; exact hreachp
        · simp only [if_neg hqp] at hq
          exact hpred.vis_reach q hq
      · exact List.Nodup.cons hnotq hpred.qnodup
    · intro q hq
      by_cases hqp : q = y.toNat * w + x.toNat
      · subst hqp; simp
      · simpa [if_neg hqp] using hq
    · intro q hq
      exact List.mem_cons_of_mem _ hq
    · intro q hq
      by_cases hqp : q = y.toNat * w + x.toNat
      · subst hqp
        exact Or.inr (List.mem_cons_self _ _)
      · simp only [if_neg hqp] at hq
        exact Or.inl hq
    · intro _ _ _ _ q hq hm
      subst hq
      simp
    · have hmark := unvisitedCount_mark w h t.visited (y.toNat * w + x.toNat) hp hv
      show unvisitedCount w h (fun q => if q = y.toNat * w + x.toNat then true
          else t.visited q) + (t.queue.length + 1) =
        unvisitedCount w h t.visited + t.queue.length
      omega

/-- Effect of pushing a sublist of the neighbor offsets of a reachable pixel
`p`: invariant preserved, visited/queue monotone, fresh visits queued, every
in-bounds matchable offset target marked, measure preserved, data unchanged. -/
theorem pushNeighbors_spec (p : Nat) (hp : Reachable w h orig bg thr p)
    (L : List (Int × Int)) (hL : ∀ d ∈ L, d ∈ neighborOffsets) :
    ∀ (t0 : FillState), PartialInv w h orig bg thr t0 →
    PartialInv w h orig bg thr (pushNeighbors w h bg thr p L t0) ∧
    (∀ q, t0.visited q = true → (pushNeighbors w h bg thr p L t0).visited q = true) ∧
    (∀ q, q ∈ t0.queue → q ∈ (pushNeighbors w h bg thr p L t0).queue) ∧
    (∀ q, (pushNeighbors w h bg thr p L t0).visited q = true →
      t0.visited q = true ∨ q ∈ (pushNeighbors w h bg thr p L t0).queue) ∧
    (∀ d ∈ L, ∀ q, AdjAt w h p d q → Matchable w h orig bg thr q →
      (pushNeighbors w h bg thr p L t0).visited q = true) ∧
    (unvisitedCount w h (pushNeighbors w h bg thr p L t0).visited +
        (pushNeighbors w h bg thr p L t0).queue.length =
      unvisitedCount w h t0.visited + t0.queue.length) ∧
    (pushNeighbors w h bg thr p L t0).data = t0.data := by
  induction L with
  | nil =>
      intro t0 hpred
      exact ⟨hpred, fun q hq => hq, fun q hq => hq, fun q hq => Or.inl hq,
        fun d hd => absurd hd (List.not_mem_nil d), rfl, rfl⟩
  | cons d L ih =>
      intro t0 hpred
      have hd0 : d ∈ neighborOffsets := hL d (List.mem_cons_self _ _)
      have hL' : ∀ e ∈ L, e ∈ neighborOffsets :=
        fun e he => hL e (List.mem_cons_of_mem _ he)
      have hpush := pushPixel_pred w h orig bg thr t0
        (((p % w : Nat) : Int) + d.1) (((p / w : Nat) : Int) + d.2) hpred
        (fun q hx0 hy0 hxw hyh hq hm =>
          reachable_closure w h orig bg thr hp ⟨d, hd0, hx0, hy0, hxw, hyh, hq⟩ hm)
      obtain ⟨hp1, hmono1, hqmono1, hnew1, hmark1, hmeas1, hdata1⟩ := hpush
      obtain ⟨hp2, hmono2, hqmono2, hnew2, hmark2, hmeas2, hdata2⟩ := ih hL' _ hp1
      have hfold : pushNeighbors w h bg thr p (d :: L) t0 =
          pushNeighbors w h bg thr p L
            (pushPixel w h bg thr t0 (((p % w : Nat) : Int) + d.1)
              (((p / w : Nat) : Int) + d.2)) := rfl
      rw [hfold]
      refine ⟨hp2, fun q hq => hmono2 q (hmono1 q hq),
        fun q hq => hqmono2 q (hqmono1 q hq), ?_, ?_, hmeas2.trans hmeas1,
        hdata2.trans hdata1⟩
      · intro q hq
        rcases hnew2 q hq with h1 | h1
        · rcases hnew1 q h1 with h2 | h2
          · exact Or.inl h2
          · exact Or.inr (hqmono2 q h2)
        · exact Or.inr h1
      · intro e he q hadj hm
        rcases List.mem_cons.mp he with he1 | he1
        · subst he1
          obtain ⟨hx0, hy0, hxw, hyh, hq⟩ := hadj
          exact hmono2 q (hmark1 hx0 hy0 hxw hyh q hq hm)
        · exact hmark2 e he1 q hadj hm

/-- One `while` iteration preserves the full invariant and decreases the
measure `unvisitedCount + queue.length` by exactly one. -/
theorem popStep_spec (s : FillState) (p : Nat) (rest : List Nat)
    (hq : s.queue = p :: rest) (hinv : FillInv w h orig bg thr s) :
    FillInv w h orig bg thr (popStep w h bg thr p rest s) ∧
    unvisitedCount w h (popStep w h bg thr p rest s).visited +
        (popStep w h bg thr p rest s).queue.length + 1 =
      unvisitedCount w h s.visited + s.queue.length := by
  have hpmem : p ∈ s.queue := by rw [hq]; exact List.mem_cons_self _ _
  have hpvis : s.visited p = true := hinv.queue_vis p hpmem
  have hpreach : Reachable w h orig bg thr p := hinv.vis_reach p hpvis
  have hpnotrest : p ∉ rest := by
    have hn := hinv.qnodup
    rw [hq] at hn
    exact (List.nodup_cons.mp hn).1
  have hdatap : s.data p = orig p := by
    have hd := hinv.data_eq p
    rw [if_neg (by rintro ⟨_, hmem⟩; exact hmem hpmem)] at hd
    exact hd
  have hs1inv : PartialInv w h orig bg thr
      { data := fun q => if q = p then eraseAlpha (s.data q) else s.data q
        visited := s.visited
        queue := rest } := by
    refine ⟨hinv.vis_match, ?_, ?_, hinv.vis_reach, ?_⟩
    · intro q
      show (if q = p then eraseAlpha (s.data q) else s.data q) = _
      by_cases hqp : q = p
      · subst hqp
        rw [if_pos rfl, hdatap, if_pos ⟨hpvis, hpnotrest⟩]
      · rw [if_neg hqp, hinv.data_eq q]
        refine if_congr ?_ rfl rfl
        constructor
        · rintro ⟨hvis, hmem⟩
          exact ⟨hvis, fun hmem2 => hmem (by rw [hq]; exact List.mem_cons_of_mem _ hmem2)⟩
        · rintro ⟨hvis, hmem⟩
          refine ⟨hvis, fun hmem2 => ?_⟩
          rw [hq] at hmem2
          rcases List.mem_cons.mp hmem2 with h1 | h1
          · exact hqp h1
          · exact hmem h1
    · intro q hmem
      exact hinv.queue_vis q (by rw [hq]; exact List.mem_cons_of_mem _ hmem)
    · have hn := hinv.qnodup
      rw [hq] at hn
      exact (List.nodup_cons.mp hn).2
  obtain ⟨hp2, hmono2, hqmono2, hnew2, hmark2, hmeas2, hdata2⟩ :=
    pushNeighbors_spec w h orig bg thr p hpreach neighborOffsets
      (fun d hd => hd) _ hs1inv
  constructor
  · refine ⟨hp2, ?_, ?_⟩
    · intro r q hvr hnr hadj hm
      by_cases hrp : r = p
      · subst hrp
        obtain ⟨d, hd, hAdjAt⟩ := hadj
        exact hmark2 d hd q hAdjAt hm
      · have hvis_r : s.visited r = true := by
          rcases hnew2 r hvr with h1 | h1
          · exact h1
          · exact absurd h1 hnr
        have hnot_r : r ∉ s.queue := by
          rw [hq]
          intro hmem
          rcases List.mem_cons.mp hmem with h1 | h1
          · exact hrp h1
          · exact hnr (hqmono2 r h1)
        exact hmono2 q (hinv.processed_closed r q hvis_r hnot_r hadj hm)
    · intro z hz
      exact hmono2 z (hinv.seeds_vis z hz)
  · show unvisitedCount w h (popStep w h bg thr p rest s).visited +
        (popStep w h bg thr p rest s).queue.length + 1 = _
    have hlen : s.queue.length = rest.length + 1 := by rw [hq]; rfl
    have : unvisitedCount w h (popStep w h bg thr p rest s).visited +
        (popStep w h bg thr p rest s).queue.length =
        unvisitedCount w h s.visited + rest.length := hmeas2
    omega

/-- With fuel at least the measure, the fill loop preserves the invariant and
drains the queue. -/
theorem fillLoop_spec (fuel : Nat) :
    ∀ (s : FillState), FillInv w h orig bg thr s →
    unvisitedCount w h s.visited + s.queue.length ≤ fuel →
    FillInv w h orig bg thr (fillLoop w h bg thr fuel s) ∧
    (fillLoop w h bg thr fuel s).queue = [] := by
  induction fuel with
  | zero =>
      intro s hinv hle
      have hlen : s.queue.length = 0 := by omega
      exact ⟨hinv, List.length_eq_zero.mp hlen⟩
  | succ fuel ih =>
      intro s hinv hle
      obtain ⟨da, vi, qu⟩ := s
      cases hq : qu with
      | nil =>
          subst hq
          exact ⟨hinv, rfl⟩
      | cons p rest =>
          subst hq
          have hstep := popStep_spec w h orig bg thr ⟨da, vi, p :: rest⟩ p rest rfl hinv
          have heq : fillLoop w h bg thr (fuel + 1) ⟨da, vi, p :: rest⟩ =
              fillLoop w h bg thr fuel (popStep w h bg thr p rest ⟨da, vi, p :: rest⟩) := rfl
          rw [heq]
          apply ih _ hstep.1
          have hm := hstep.2
          simp only [List.length_cons] at hle hm ⊢
          omega

/-- Row recovery from a pixel index. -/
theorem idx_div {xn : Nat} (yn : Nat) (hx : xn < w) : (yn * w + xn) / w = yn := by
  have hw0 : 0 < w := by omega
  rw [mul_comm, Nat.mul_add_div hw0, Nat.div_eq_of_lt hx, Nat.add_zero]

/-- Column recovery from a pixel index. -/
theorem idx_mod {xn : Nat} (yn : Nat) (hx : xn < w) : (yn * w + xn) % w = xn := by
  rw [mul_comm, Nat.mul_add_mod, Nat.mod_eq_of_lt hx]

/-- Effect of the first seeding loop: invariant and visited-in-queue are
preserved, visited grows, and every matchable top/bottom border pixel of a
column in the list ends up visited. -/
theorem seedXFold_spec (L : List Nat) (hL : ∀ x ∈ L, x < w) :
    ∀ (t0 : FillState), PartialInv w h orig bg thr t0 →
    (∀ q, t0.visited q = true → q ∈ t0.queue) →
    PartialInv w h orig bg thr (seedXFold w h bg thr L t0) ∧
    (∀ q, (seedXFold w h bg thr L t0).visited q = true →
      q ∈ (seedXFold w h bg thr L t0).queue) ∧
    (∀ q, t0.visited q = true → (seedXFold w h bg thr L t0).visited q = true) ∧
    (∀ x ∈ L, 0 < h → Matchable w h orig bg thr x →
      (seedXFold w h bg thr L t0).visited x = true) ∧
    (∀ x ∈ L, 0 < h → Matchable w h orig bg thr ((h - 1) * w + x) →
      (seedXFold w h bg thr L t0).visited ((h - 1) * w + x) = true) := by
  induction L with
  | nil =>
      intro t0 hpred hvq
      exact ⟨hpred, hvq, fun q hq => hq,
        fun x hx => absurd hx (List.not_mem_nil x),
        fun x hx => absurd hx (List.not_mem_nil x)⟩
  | cons x L ih =>
      intro t0 hpred hvq
      have hxw : x < w := hL x (List.mem_cons_self _ _)
      have hL' : ∀ e ∈ L, e < w := fun e he => hL e (List.mem_cons_of_mem _ he)
      have hreach1 : ∀ q, 0 ≤ (x : Int) → 0 ≤ (0 : Int) → (x : Int) < (w : Int) →
          (0 : Int) < (h : Int) → q = (0 : Int).toNat * w + (x : Int).toNat →
          Matchable w h orig bg thr q → Reachable w h orig bg thr q := by
        intro q _ _ _ _ hq hm
        have hqx : q = x := by simpa using hq
        subst hqx
        exact ⟨q, ⟨⟨hm.1, Or.inr (Or.inr (Or.inl (by
          rw [Nat.div_eq_of_lt hxw])))⟩, hm⟩, Relation.ReflTransGen.refl⟩
      obtain ⟨hp1, hmono1, hqm1, hnew1, hmark1, _, _⟩ :=
        pushPixel_pred w h orig bg thr t0 (x : Int) 0 hpred hreach1
      have hvq1 : ∀ q, (pushPixel w h bg thr t0 (x : Int) 0).visited q = true →
          q ∈ (pushPixel w h bg thr t0 (x : Int) 0).queue := by
        intro q hq
        rcases hnew1 q hq with h1 | h1
        · exact hqm1 q (hvq q h1)
        · exact h1
      have hreach2 : ∀ q, 0 ≤ (x : Int) → 0 ≤ (h : Int) - 1 →
          (x : Int) < (w : Int) → (h : Int) - 1 < (h : Int) →
          q = ((h : Int) - 1).toNat * w + (x : Int).toNat →
          Matchable w h orig bg thr q → Reachable w h orig bg thr q := by
        intro q _ hy0 _ _ hq hm
        have hh1 : ((h : Int) - 1).toNat = h - 1 := by omega
        have hqx : q = (h - 1) * w + x := by
          rw [hq, hh1, Int.toNat_natCast]
        subst hqx
        exact ⟨_, ⟨⟨hm.1, Or.inr (Or.inr (Or.inr (idx_div w _ hxw)))⟩, hm⟩,
          Relation.ReflTransGen.refl⟩
      obtain ⟨hp2, hmono2, hqm2, hnew2, hmark2, _, _⟩ :=
        pushPixel_pred w h orig bg thr (pushPixel w h bg thr t0 (x : Int) 0)
          (x : Int) ((h : Int) - 1) hp1 hreach2
      have hvq2 : ∀ q, (pushPixel w h bg thr (pushPixel w h bg thr t0 (x : Int) 0)
          (x : Int) ((h : Int) - 1)).visited q = true →
          q ∈ (pushPixel w h bg thr (pushPixel w h bg thr t0 (x : Int) 0)
            (x : Int) ((h : Int) - 1)).queue := by
        intro q hq
        rcases hnew2 q hq with h1 | h1
        · exact hqm2 q (hvq1 q h1)
        · exact h1
      obtain ⟨hpF, hvqF, hmonoF, hmarkXF, hmarkHF⟩ := ih hL' _ hp2 hvq2
      have hfold : seedXFold w h bg thr (x :: L) t0 =
          seedXFold w h bg thr L
            (pushPixel w h bg thr (pushPixel w h bg thr t0 (x : Int) 0)
              (x : Int) ((h : Int) - 1)) := rfl
      rw [hfold]
      refine ⟨hpF, hvqF, fun q hq => hmonoF q (hmono2 q (hmono1 q hq)), ?_, ?_⟩
      · intro e he hh hm
        rcases List.mem_cons.mp he with he1 | he1
        · subst he1
          refine hmonoF _ (hmono2 _ (hmark1 (by exact_mod_cast Nat.zero_le e) le_rfl
            (by exact_mod_cast hxw) (by exact_mod_cast hh) e (by simp) hm))
        · exact hmarkXF e he1 hh hm
      · intro e he hh hm
        rcases List.mem_cons.mp he with he1 | he1
        · subst he1
          have hh1 : ((h : Int) - 1).toNat = h - 1 := by omega
          refine hmonoF _ (hmark2 (by exact_mod_cast Nat.zero_le e) (by omega)
            (by exact_mod_cast hxw) (by omega) ((h - 1) * w + e) ?_ hm)
          rw [hh1, Int.toNat_natCast]
        · exact hmarkHF e he1 hh hm

/-- Effect of the second seeding loop: invariant and visited-in-queue are
preserved, visited grows, and every matchable left/right border pixel of a
row in the list ends up visited. -/
theorem seedYFold_spec (L : List Nat) (hL : ∀ i ∈ L, i < h - 2) :
    ∀ (t0 : FillState), PartialInv w h orig bg thr t0 →
    (∀ q, t0.visited q = true → q ∈ t0.queue) →
    PartialInv w h orig bg thr (seedYFold w h bg thr L t0) ∧
    (∀ q, (seedYFold w h bg thr L t0).visited q = true →
      q ∈ (seedYFold w h bg thr L t0).queue) ∧
    (∀ q, t0.visited q = true → (seedYFold w h bg thr L t0).visited q = true) ∧
    (∀ i ∈ L, Matchable w h orig bg thr ((i + 1) * w) →
      (seedYFold w h bg thr L t0).visited ((i + 1) * w) = true) ∧
    (∀ i ∈ L, 0 < w → Matchable w h orig bg thr ((i + 1) * w + (w - 1)) →
      (seedYFold w h bg thr L t0).visited ((i + 1) * w + (w - 1)) = true) := by
  induction L with
  | nil =>
      intro t0 hpred hvq
      exact ⟨hpred, hvq, fun q hq => hq,
        fun i hi => absurd hi (List.not_mem_nil i),
        fun i hi => absurd hi (List.not_mem_nil i)⟩
  | cons i L ih =>
      intro t0 hpred hvq
      have hih : i < h - 2 := hL i (List.mem_cons_self _ _)
      have hL' : ∀ e ∈ L, e < h - 2 := fun e he => hL e (List.mem_cons_of_mem _ he)
      have hreach1 : ∀ q, 0 ≤ (0 : Int) → 0 ≤ (i : Int) + 1 →
          (0 : Int) < (w : Int) → (i : Int) + 1 < (h : Int) →
          q = ((i : Int) + 1).toNat * w + (0 : Int).toNat →
          Matchable w h orig bg thr q → Reachable w h orig bg thr q := by
        intro q _ _ _ _ hq hm
        have hi1 : ((i : Int) + 1).toNat = i + 1 := by omega
        have hqx : q = (i + 1) * w := by
          rw [hq, hi1]
          simp
        subst hqx
        exact ⟨_, ⟨⟨hm.1, Or.inl (Nat.mul_mod_left _ _)⟩, hm⟩,
          Relation.ReflTransGen.refl⟩
      obtain ⟨hp1, hmono1, hqm1, hnew1, hmark1, _, _⟩ :=
        pushPixel_pred w h orig bg thr t0 0 ((i : Int) + 1) hpred hreach1
      have hvq1 : ∀ q, (pushPixel w h bg thr t0 0 ((i : Int) + 1)).visited q = true →
          q ∈ (pushPixel w h bg thr t0 0 ((i : Int) + 1)).queue := by
        intro q hq
        rcases hnew1 q hq with h1 | h1
        · exact hqm1 q (hvq q h1)
        · exact h1
      have hreach2 : ∀ q, 0 ≤ (w : Int) - 1 → 0 ≤ (i : Int) + 1 →
          (w : Int) - 1 < (w : Int) → (i : Int) + 1 < (h : Int) →
          q = ((i : Int) + 1).toNat * w + ((w : Int) - 1).toNat →
          Matchable w h orig bg thr q → Reachable w h orig bg thr q := by
        intro q hx0 _ _ _ hq hm
        have hw0 : 0 < w := by omega
        have hi1 : ((i : Int) + 1).toNat = i + 1 := by omega
        have hw1 : ((w : Int) - 1).toNat = w - 1 := by omega
        have hqx : q = (i + 1) * w + (w - 1) := by rw [hq, hi1, hw1]
        subst hqx
        exact ⟨_, ⟨⟨hm.1, Or.inr (Or.inl (idx_mod w _ (by omega)))⟩, hm⟩,
          Relation.ReflTransGen.refl⟩
      obtain ⟨hp2, hmono2, hqm2, hnew2, hmark2, _, _⟩ :=
        pushPixel_pred w h orig bg thr (pushPixel w h bg thr t0 0 ((i : Int) + 1))
          ((w : Int) - 1) ((i : Int) + 1) hp1 hreach2
      have hvq2 : ∀ q, (pushPixel w h bg thr (pushPixel w h bg thr t0 0 ((i : Int) + 1))
          ((w : Int) - 1) ((i : Int) + 1)).visited q = true →
          q ∈ (pushPixel w h bg thr (pushPixel w h bg thr t0 0 ((i : Int) + 1))
            ((w : Int) - 1) ((i : Int) + 1)).queue := by
        intro q hq
        rcases hnew2 q hq with h1 | h1
        · exact hqm2 q (hvq1 q h1)
        · exact h1
      obtain ⟨hpF, hvqF, hmonoF, hmarkLF, hmarkRF⟩ := ih hL' _ hp2 hvq2
      have hfold : seedYFold w h bg thr (i :: L) t0 =
          seedYFold w h bg thr L
            (pushPixel w h bg thr (pushPixel w h bg thr t0 0 ((i : Int) + 1))
              ((w : Int) - 1) ((i : Int) + 1)) := rfl
      rw [hfold]
      refine ⟨hpF, hvqF, fun q hq => hmonoF q (hmono2 q (hmono1 q hq)), ?_, ?_⟩
      · intro e he hm
        rcases List.mem_cons.mp he with he1 | he1
        · subst he1
          have hi1 : ((e : Int) + 1).toNat = e + 1 := by omega
          refine hmonoF _ (hmono2 _ (hmark1 le_rfl (by omega) ?_ (by omega)
            ((e + 1) * w) (by rw [hi1]; simp) hm))
          have hw0 : 0 < w := by
            rcases Nat.eq_zero_or_pos w with hw | hw
            · exfalso
              have := hm.1
              rw [hw] at this
              omega
            · exact hw
          exact_mod_cast hw0
        · exact hmarkLF e he1 hm
      · intro e he hw0 hm
        rcases List.mem_cons.mp he with he1 | he1
        · subst he1
          have hi1 : ((e : Int) + 1).toNat = e + 1 := by omega
          have hw1 : ((w : Int) - 1).toNat = w - 1 := by omega
          refine hmonoF _ (hmark2 (by omega) (by omega) (by omega) (by omega)
            ((e + 1) * w + (w - 1)) (by rw [hi1, hw1]) hm)
        · exact hmarkRF e he1 hw0 hm

/-- After both seeding loops the full loop invariant holds: in particular
every matchable border pixel has been seeded. -/
theorem seedState_spec (data0 : Nat → Color) :
    FillInv w h data0 bg thr (seedState w h bg thr data0) := by
  have hpred0 : PartialInv w h data0 bg thr ⟨data0, fun _ => false, []⟩ := by
    refine ⟨?_, ?_, ?_, ?_, ?_⟩
    · intro p hp; cases hp
    · intro p
      rw [if_neg]
      rintro ⟨hvis, _⟩
      cases hvis
    · intro p hp; exact absurd hp (List.not_mem_nil p)
    · intro p hp; cases hp
    · exact List.nodup_nil
  obtain ⟨hpX, hvqX, hmonoX, hmarkX0, hmarkXH⟩ :=
    seedXFold_spec w h data0 bg thr (List.range w)
      (fun x hx => List.mem_range.mp hx) _ hpred0 (fun q hq => by cases hq)
  obtain ⟨hpY, hvqY, hmonoY, hmarkYL, hmarkYR⟩ :=
    seedYFold_spec w h data0 bg thr (List.range (h - 2))
      (fun i hi => List.mem_range.mp hi) _ hpX hvqX
  refine ⟨hpY, ?_, ?_⟩
  · intro r q hvr hnr _ _
    exact absurd (hvqY r hvr) hnr
  · intro p hseed
    obtain ⟨⟨hpr, hborder⟩, hm⟩ := hseed
    have hw0 : 0 < w := by
      rcases Nat.eq_zero_or_pos w with hw | hw
      · rw [hw] at hpr; omega
      · exact hw
    have hh0 : 0 < h := by
      rcases Nat.eq_zero_or_pos h with hh | hh
      · rw [hh] at hpr; omega
      · exact hh
    have hxlt : p % w < w := Nat.mod_lt _ hw0
    have hylt : p / w < h := by
      rw [Nat.div_lt_iff_lt_mul hw0]
      have hcomm : w * h = h * w := Nat.mul_comm w h
      omega
    have hrec : p / w * w + p % w = p := by
      rw [mul_comm]
      exact Nat.div_add_mod p w
    by_cases hy0 : p / w = 0
    · have hz : p / w * w = 0 := by rw [hy0, Nat.zero_mul]
      have hpx : p = p % w := by omega
      rw [hpx]
      refine hmonoY _ (hmarkX0 (p % w) (List.mem_range.mpr hxlt) hh0 ?_)
      rw [← hpx]
      exact hm
    · by_cases hyh : p / w = h - 1
      · have hpx : (h - 1) * w + p % w = p := by
          rw [← hyh]
          exact hrec
        rw [← hpx]
        refine hmonoY _ (hmarkXH (p % w) (List.mem_range.mpr hxlt) hh0 ?_)
        rw [hpx]
        exact hm
      · have hy1 : 1 ≤ p / w := Nat.one_le_iff_ne_zero.mpr hy0
        have hy2 : p / w ≤ h - 2 := by omega
        have hiw : p / w - 1 + 1 = p / w := by omega
        rcases hborder with hx0 | hxw1 | hy0' | hyh'
        · have hpeq : (p / w - 1 + 1) * w = p := by
            rw [hiw]
            omega
          rw [← hpeq]
          refine hmarkYL (p / w - 1) (List.mem_range.mpr (by omega)) ?_
          rw [hpeq]
          exact hm
        · have hpeq : (p / w - 1 + 1) * w + (w - 1) = p := by
            rw [hiw]
            omega
          rw [← hpeq]
          refine hmarkYR (p / w - 1) (List.mem_range.mpr (by omega)) hw0 ?_
          rw [hpeq]
          exact hm
        · exact absurd hy0' hy0
        · exact absurd hyh' hyh

/-- The completed run satisfies the invariant with an empty queue. -/
theorem matteRun_spec (data0 : Nat → Color) :
    FillInv w h data0 bg thr (matteRun w h bg thr data0) ∧
    (matteRun w h bg thr data0).queue = [] := by
  have hseed := seedState_spec w h bg thr data0
  have hle : unvisitedCount w h (seedState w h bg thr data0).visited +
      (seedState w h bg thr data0).queue.length ≤
      w * h + (seedState w h bg thr data0).queue.length := by
    have := unvisitedCount_le w h (seedState w h bg thr data0).visited
    omega
  exact fillLoop_spec w h data0 bg thr _ _ hseed hle

/-- A pixel ends up visited exactly when it is reachable from a matchable
border pixel through matchable 8-connected pixels. -/
theorem matteRun_visited_iff (data0 : Nat → Color) (p : Nat) :
    (matteRun w h bg thr data0).visited p = true ↔
      Reachable w h data0 bg thr p := by
  obtain ⟨hinv, hqe⟩ := matteRun_spec w h bg thr data0
  constructor
  · exact fun hv => hinv.vis_reach p hv
  · rintro ⟨s0, hs, hchain⟩
    induction hchain with
    | refl => exact hinv.seeds_vis s0 hs
    | tail hchain hstep ih =>
        exact hinv.processed_closed _ _ ih
          (by rw [hqe]; exact List.not_mem_nil _) hstep.1 hstep.2

/-- The final pixel data: alpha erased exactly on the visited pixels. -/
theorem matteRun_data (data0 : Nat → Color) (p : Nat) :
    (matteRun w h bg thr data0).data p =
      if (matteRun w h bg thr data0).visited p = true then eraseAlpha (data0 p)
      else data0 p := by
  obtain ⟨hinv, hqe⟩ := matteRun_spec w h bg thr data0
  have hd := hinv.data_eq p
  rw [hqe] at hd
  simpa using hd

end MatteProofs

/-- Reachable pixels have their alpha erased by the matte. -/
theorem matteThr_data_reach (img : Img) (bgc : Color) (thrq : ℚ) (p : Nat)
    (hr : Reachable img.width img.height img.data bgc thrq p) :
    (matteThr img bgc thrq).data p = eraseAlpha (img.data p) := by
  show (matteRun img.width img.height bgc thrq img.data).data p = _
  rw [matteRun_data, if_pos ((matteRun_visited_iff img.width img.height bgc
    thrq img.data p).mpr hr)]

/-- Unreachable pixels keep their original data under the matte. -/
theorem matteThr_data_unreach (img : Img) (bgc : Color) (thrq : ℚ) (p : Nat)
    (hr : ¬Reachable img.width img.height img.data bgc thrq p) :
    (matteThr img bgc thrq).data p = img.data p := by
  show (matteRun img.width img.height bgc thrq img.data).data p = _
  rw [matteRun_data, if_neg]
  intro hv
  exact hr ((matteRun_visited_iff img.width img.height bgc thrq img.data p).mp hv)

/-- `matte` is `matteThr` at the computed threshold. -/
theorem matte_eq (img : Img) (bgc : Color) (t : ℚ) :
    matte img bgc t = matteThr img bgc (toleranceThreshold t) := rfl

/-- Tolerance comparisons are monotone in the threshold. -/
theorem withinTolerance_mono (c bgc : Color) {t1 t2 : ℚ} (h12 : t1 ≤ t2)
    (hw : withinTolerance c bgc t1 = true) : withinTolerance c bgc t2 = true := by
  simp only [withinTolerance, decide_eq_true_eq] at hw ⊢
  linarith

/-- Reachability is monotone in the threshold. -/
theorem reachable_mono (w h : Nat) (orig : Nat → Color) (bgc : Color)
    {t1 t2 : ℚ} (h12 : t1 ≤ t2) {p : Nat}
    (hr : Reachable w h orig bgc t1 p) : Reachable w h orig bgc t2 p := by
  obtain ⟨s0, ⟨hb, hm⟩, hchain⟩ := hr
  refine ⟨s0, ⟨hb, hm.1, withinTolerance_mono _ _ h12 hm.2⟩, ?_⟩
  exact Relation.ReflTransGen.mono
    (fun a b hab => ⟨hab.1, hab.2.1, withinTolerance_mono _ _ h12 hab.2.2⟩) hchain

/-- The derived threshold is monotone on the tolerance range `[0, 100]`. -/
theorem toleranceThreshold_mono (t1 t2 : ℚ) (h0 : 0 ≤ t1) (h12 : t1 ≤ t2)
    (h100 : t2 ≤ 100) : toleranceThreshold t1 ≤ toleranceThreshold t2 := by
  unfold toleranceThreshold jsClamp
  rw [if_neg (by linarith), if_neg (by linarith), if_neg (by linarith),
    if_neg (by linarith)]
  have h1 : t1 / 100 ≤ t2 / 100 := by linarith
  have h2 : (0 : ℚ) ≤ t1 / 100 := by positivity
  nlinarith [mul_self_le_mul_self h2 h1]

/-- Pass-2 reachability over the matted data implies pass-1 reachability
over the original data: already-erased pixels cannot open new paths. -/
theorem reachable_matte_subset (img : Img) (bgc : Color) (thrq : ℚ) (p : Nat)
    (h2 : Reachable img.width img.height (matteThr img bgc thrq).data bgc thrq p) :
    Reachable img.width img.height img.data bgc thrq p := by
  have hK1 : ∀ q,
      Matchable img.width img.height (matteThr img bgc thrq).data bgc thrq q →
      ¬Reachable img.width img.height img.data bgc thrq q →
      Matchable img.width img.height img.data bgc thrq q := by
    intro q hm hnr
    obtain ⟨hq, hw⟩ := hm
    refine ⟨hq, ?_⟩
    rw [matteThr_data_unreach img bgc thrq q hnr] at hw
    exact hw
  obtain ⟨s0, ⟨hb0, hm0⟩, hchain⟩ := h2
  have hseed : Reachable img.width img.height img.data bgc thrq s0 := by
    by_cases hr : Reachable img.width img.height img.data bgc thrq s0
    · exact hr
    · exact ⟨s0, ⟨hb0, hK1 s0 hm0 hr⟩, Relation.ReflTransGen.refl⟩
  induction hchain with
  | refl => exact hseed
  | @tail b c hchain hstep ih =>
      by_cases hr : Reachable img.width img.height img.data bgc thrq c
      · exact hr
      · exact reachable_closure img.width img.height img.data bgc thrq ih
          hstep.1 (hK1 c hstep.2 hr)

/-- C2: the matte keeps width, height and RGB; a pixel's data is replaced by
its alpha-erased value exactly when the pixel is matchable and reachable from
a matchable border pixel through 8-connected matchable pixels, and is kept
verbatim otherwise. -/
theorem c2_matte_characterization (img : Img) (bgc : Color) (t : ℚ) (p : Nat)
    (_hp : p < img.width * img.height) :
    (matte img bgc t).width = img.width ∧
    (matte img bgc t).height = img.height ∧
    ((Matchable img.width img.height img.data bgc (toleranceThreshold t) p ∧
        Reachable img.width img.height img.data bgc (toleranceThreshold t) p) →
      (matte img bgc t).data p = eraseAlpha (img.data p)) ∧
    (¬(Matchable img.width img.height img.data bgc (toleranceThreshold t) p ∧
        Reachable img.width img.height img.data bgc (toleranceThreshold t) p) →
      (matte img bgc t).data p = img.data p) ∧
    ((matte img bgc t).data p).r = (img.data p).r ∧
    ((matte img bgc t).data p).g = (img.data p).g ∧
    ((matte img bgc t).data p).b = (img.data p).b := by
  have herase : ∀ hr : Reachable img.width img.height img.data bgc
      (toleranceThreshold t) p,
      (matte img bgc t).data p = eraseAlpha (img.data p) := by
    intro hr
    rw [matte_eq]
    exact matteThr_data_reach img bgc (toleranceThreshold t) p hr
  have hkeep : ∀ _ : ¬Reachable img.width img.height img.data bgc
      (toleranceThreshold t) p,
      (matte img bgc t).data p = img.data p := by
    intro hr
    rw [matte_eq]
    exact matteThr_data_unreach img bgc (toleranceThreshold t) p hr
  have hrgb : ((matte img bgc t).data p).r = (img.data p).r ∧
      ((matte img bgc t).data p).g = (img.data p).g ∧
      ((matte img bgc t).data p).b = (img.data p).b := by
    by_cases hr : Reachable img.width img.height img.data bgc
      (toleranceThreshold t) p
    · rw [herase hr]
      exact ⟨rfl, rfl, rfl⟩
    · rw [hkeep hr]
      exact ⟨rfl, rfl, rfl⟩
  exact ⟨rfl, rfl, fun hmr => herase hmr.2,
    fun hn => hkeep (fun hr => hn ⟨reachable_matchable img.width img.height
      img.data bgc (toleranceThreshold t) hr, hr⟩),
    hrgb.1, hrgb.2.1, hrgb.2.2⟩

/-- C2 witness: on a 1×1 white image with white background and tolerance 0,
the unique (border, matchable, reachable) pixel is erased. -/
theorem c2_witness :
    0 < white1.width * white1.height ∧
    (matte white1 whiteColor 0).data 0 = eraseAlpha (white1.data 0) := by
  have hm : Matchable white1.width white1.height white1.data whiteColor
      (toleranceThreshold 0) 0 := by
    constructor
    · decide
    · simp only [withinTolerance, decide_eq_true_eq]
      norm_num [white1, whiteColor, distSq, toleranceThreshold, jsClamp]
  have hb : BorderPixel white1.width white1.height 0 := by
    constructor
    · decide
    · decide
  have hr : Reachable white1.width white1.height white1.data whiteColor
      (toleranceThreshold 0) 0 :=
    ⟨0, ⟨hb, hm⟩, Relation.ReflTransGen.refl⟩
  exact ⟨by decide,
    (c2_matte_characterization white1 whiteColor 0 0 (by decide)).2.2.1 ⟨hm, hr⟩⟩

/-- C7: raising the tolerance percentage within `[0, 100]` only grows the set
of erased (alpha = 0) pixels, hence the erased-pixel count is monotone. -/
theorem c7_tolerance_monotonicity (img : Img) (bgc : Color) (t1 t2 : ℚ)
    (h0 : 0 ≤ t1) (h12 : t1 ≤ t2) (h100 : t2 ≤ 100) :
    (∀ p, ((matte img bgc t1).data p).a = 0 → ((matte img bgc t2).data p).a = 0) ∧
    erasedCount img bgc t1 ≤ erasedCount img bgc t2 := by
  have hthr := toleranceThreshold_mono t1 t2 h0 h12 h100
  have halpha : ∀ p, ((matte img bgc t1).data p).a = 0 →
      ((matte img bgc t2).data p).a = 0 := by
    intro p hp1
    rw [matte_eq] at hp1 ⊢
    by_cases hr1 : Reachable img.width img.height img.data bgc
      (toleranceThreshold t1) p
    · have hr2 := reachable_mono img.width img.height img.data bgc hthr hr1
      rw [matteThr_data_reach img bgc (toleranceThreshold t2) p hr2]
      rfl
    · rw [matteThr_data_unreach img bgc (toleranceThreshold t1) p hr1] at hp1
      by_cases hr2 : Reachable img.width img.height img.data bgc
        (toleranceThreshold t2) p
      · rw [matteThr_data_reach img bgc (toleranceThreshold t2) p hr2]
        rfl
      · rw [matteThr_data_unreach img bgc (toleranceThreshold t2) p hr2]
        exact hp1
  refine ⟨halpha, Finset.card_le_card ?_⟩
  intro p hp
  rw [Finset.mem_filter] at hp ⊢
  exact ⟨hp.1, halpha p hp.2⟩

/-- C7 witness: concrete tolerances 0 ≤ 50 on a concrete image. -/
theorem c7_witness :
    (0 : ℚ) ≤ 0 ∧ (0 : ℚ) ≤ 50 ∧ (50 : ℚ) ≤ 100 ∧
    erasedCount white1 whiteColor 0 ≤ erasedCount white1 whiteColor 50 :=
  ⟨le_refl 0, by norm_num, by norm_num,
    (c7_tolerance_monotonicity white1 whiteColor 0 50 le_rfl (by norm_num)
      (by norm_num)).2⟩

/-- C8: the matte output is a fixed point — running the engine again on its
own output with the same background and tolerance changes nothing. -/
theorem c8_matte_idempotent (img : Img) (bgc : Color) (t : ℚ) :
    matte (matte img bgc t) bgc t = matte img bgc t := by
  rw [matte_eq, matte_eq]
  apply Img.ext
  · rfl
  · rfl
  · funext p
    by_cases hr2 : Reachable (matteThr img bgc (toleranceThreshold t)).width
        (matteThr img bgc (toleranceThreshold t)).height
        (matteThr img bgc (toleranceThreshold t)).data bgc
        (toleranceThreshold t) p
    · rw [matteThr_data_reach _ bgc (toleranceThreshold t) p hr2]
      have hr1 : Reachable img.width img.height img.data bgc
          (toleranceThreshold t) p :=
        reachable_matte_subset img bgc (toleranceThreshold t) p hr2
      rw [matteThr_data_reach img bgc (toleranceThreshold t) p hr1]
      rfl
    · exact matteThr_data_unreach _ bgc (toleranceThreshold t) p hr2

/-! ## Theorems: background color estimator -/

/-- Full append law for association lookup. -/
theorem assocLookup_append_full {α β : Type} [DecidableEq α]
    (l1 l2 : List (α × β)) (k : α) :
    assocLookup (l1 ++ l2) k =
      match assocLookup l1 k with
      | some v => some v
      | none => assocLookup l2 k := by
  induction l1 with
  | nil => rfl
  | cons hd tl ih =>
      obtain ⟨k1, v1⟩ := hd
      by_cases hk : k1 = k
      · simp [assocLookup, hk]
      · simp only [assocLookup, List.cons_append, if_neg hk]
        exact ih

/-- Unfolding lookup at a cons cell. -/
theorem assocLookup_cons {α β : Type} [DecidableEq α] (k1 : α) (v1 : β)
    (tl : List (α × β)) (k : α) :
    assocLookup ((k1, v1) :: tl) k = if k1 = k then some v1 else assocLookup tl k := rfl

/-- Lookup through an in-place update of all entries at one key. -/
theorem assocLookup_map_update {β : Type} (m : List ((Nat × Nat × Nat × Nat) × β))
    (k0 k : Nat × Nat × Nat × Nat) (f : β → β) :
    assocLookup (m.map fun kv => if kv.1 = k0 then (kv.1, f kv.2) else kv) k =
      if k = k0 then (assocLookup m k).map f else assocLookup m k := by
  induction m with
  | nil => by_cases hk : k = k0 <;> simp [assocLookup, hk]
  | cons hd tl ih =>
      obtain ⟨k1, v1⟩ := hd
      rw [List.map_cons]
      have hhead : (if (k1, v1).1 = k0 then ((k1, v1).1, f (k1, v1).2) else (k1, v1)) =
          if k1 = k0 then (k1, f v1) else (k1, v1) := rfl
      rw [hhead]
      by_cases h1 : k1 = k0
      · rw [if_pos h1, assocLookup_cons, assocLookup_cons]
        by_cases h2 : k1 = k
        · have hk0 : k = k0 := h2.symm.trans h1
          rw [if_pos h2, if_pos hk0, if_pos h2]
          rfl
        · have hk0 : ¬k = k0 := fun hc => h2 (h1.trans hc.symm)
          rw [if_neg h2, ih, if_neg hk0, if_neg hk0, if_neg h2]
      · rw [if_neg h1, assocLookup_cons, assocLookup_cons]
        by_cases h2 : k1 = k
        · have hk0 : ¬k = k0 := fun hc => h1 (h2.trans hc)
          rw [if_pos h2, if_neg hk0, if_pos h2]
        · rw [if_neg h2, ih]
          by_cases h3 : k = k0
          · rw [if_pos h3, if_pos h3, if_neg h2]
          · rw [if_neg h3, if_neg h3, if_neg h2]

/-- A missing key is not among the stored keys. -/
theorem assocLookup_none_not_mem {α β : Type} [DecidableEq α]
    (m : List (α × β)) (k : α) (h : assocLookup m k = none) :
    k ∉ m.map Prod.fst := by
  induction m with
  | nil => simp
  | cons hd tl ih =>
      obtain ⟨k1, v1⟩ := hd
      by_cases hk : k1 = k
      · simp [assocLookup, hk] at h
      · simp only [assocLookup, if_neg hk] at h
        simp only [List.map_cons, List.mem_cons]
        rintro (h1 | h1)
        · exact hk h1.symm
        · exact ih h h1

/-- A found key names a member. -/
theorem assocLookup_mem {α β : Type} [DecidableEq α]
    (m : List (α × β)) (k : α) (b : β) (h : assocLookup m k = some b) :
    (k, b) ∈ m := by
  induction m with
  | nil => cases h
  | cons hd tl ih =>
      obtain ⟨k1, v1⟩ := hd
      by_cases hk : k1 = k
      · subst hk
        rw [assocLookup_cons, if_pos rfl] at h
        injection h with h
        subst h
        exact List.mem_cons_self _ _
      · rw [assocLookup_cons, if_neg hk] at h
        exact List.mem_cons_of_mem _ (ih h)

/-- The lookup law of `addSample`: the bucket at the sample's key absorbs the
sample, every other key is untouched. -/
theorem assocLookup_addSample (m : BucketMap) (c : Color)
    (k : Nat × Nat × Nat × Nat) :
    assocLookup (addSample m c) k =
      if k = bucketKey c then mergeSample (assocLookup m k) c
      else assocLookup m k := by
  cases hcase : assocLookup m (bucketKey c) with
  | none =>
      have hred : addSample m c = m ++ [(bucketKey c, initBucket c)] := by
        unfold addSample
        rw [hcase]
      rw [hred, assocLookup_append_full]
      by_cases hk : k = bucketKey c
      · subst hk
        rw [hcase, if_pos rfl]
        rw [assocLookup_cons, if_pos rfl]
        rfl
      · cases hmk : assocLookup m k with
        | some v => rw [if_neg hk]
        | none =>
            rw [if_neg hk]
            rw [assocLookup_cons, if_neg (fun hkk => hk hkk.symm)]
            rfl
  | some b =>
      have hred : addSample m c = m.map fun kv =>
          if kv.1 = bucketKey c then (kv.1, bumpBucket kv.2 c) else kv := by
        unfold addSample
        rw [hcase]
      rw [hred, assocLookup_map_update m (bucketKey c) k (fun b => bumpBucket b c)]
      by_cases hk : k = bucketKey c
      · subst hk
        rw [if_pos rfl, if_pos rfl, hcase]
        rfl
      · rw [if_neg hk, if_neg hk]

/-- `addSample` keeps the keys pairwise distinct. -/
theorem keysNodup_addSample (m : BucketMap) (c : Color)
    (h : KeysNodup m) : KeysNodup (addSample m c) := by
  cases hcase : assocLookup m (bucketKey c) with
  | none =>
      have hred : addSample m c = m ++ [(bucketKey c, initBucket c)] := by
        unfold addSample
        rw [hcase]
      rw [hred]
      unfold KeysNodup at h ⊢
      rw [List.map_append]
      have hnot := assocLookup_none_not_mem m (bucketKey c) hcase
      simp [List.nodup_append, h, hnot]
  | some b =>
      have hred : addSample m c = m.map fun kv =>
          if kv.1 = bucketKey c then (kv.1, bumpBucket kv.2 c) else kv := by
        unfold addSample
        rw [hcase]
      rw [hred]
      unfold KeysNodup at h ⊢
      have hmap : ((m.map fun kv =>
          if kv.1 = bucketKey c then (kv.1, bumpBucket kv.2 c) else kv).map
          Prod.fst) = m.map Prod.fst := by
        rw [List.map_map]
        apply List.map_congr_left
        intro kv _
        by_cases hk : kv.1 = bucketKey c <;> simp [hk]
      rw [hmap]
      exact h

/-- Updating entries away from every stored key is the identity. -/
theorem map_update_id (m : BucketMap) (k0 : Nat × Nat × Nat × Nat)
    (f : Bucket → Bucket) (h : assocLookup m k0 = none) :
    (m.map fun kv => if kv.1 = k0 then (kv.1, f kv.2) else kv) = m := by
  induction m with
  | nil => rfl
  | cons hd tl ih =>
      obtain ⟨k1, v1⟩ := hd
      rw [assocLookup_cons] at h
      by_cases hk : k1 = k0
      · rw [if_pos hk] at h
        cases h
      · rw [if_neg hk] at h
        rw [List.map_cons]
        have hh : (if (k1, v1).1 = k0 then ((k1, v1).1, f (k1, v1).2) else (k1, v1)) =
            (k1, v1) := if_neg hk
        rw [hh, ih h]

/-- With distinct keys, one sample adds exactly one to the total count. -/
theorem totalCount_addSample (m : BucketMap) (c : Color)
    (h : KeysNodup m) : totalCount (addSample m c) = totalCount m + 1 := by
  cases hcase : assocLookup m (bucketKey c) with
  | none =>
      have hred : addSample m c = m ++ [(bucketKey c, initBucket c)] := by
        unfold addSample
        rw [hcase]
      rw [hred]
      unfold totalCount
      rw [List.map_append, List.sum_append]
      simp [initBucket]
  | some b =>
      have hred : addSample m c = m.map fun kv =>
          if kv.1 = bucketKey c then (kv.1, bumpBucket kv.2 c) else kv := by
        unfold addSample
        rw [hcase]
      rw [hred]
      clear hred
      induction m with
      | nil => cases hcase
      | cons hd tl ih =>
          obtain ⟨k1, v1⟩ := hd
          unfold KeysNodup at h
          rw [List.map_cons, List.nodup_cons] at h
          by_cases hk : k1 = bucketKey c
          · have htl : assocLookup tl (bucketKey c) = none := by
              cases hmt : assocLookup tl (bucketKey c) with
              | none => rfl
              | some v =>
                  refine absurd ?_ h.1
                  have hmem := assocLookup_mem tl (bucketKey c) v hmt
                  have hmem2 := List.mem_map_of_mem Prod.fst hmem
                  rw [← hk] at hmem2
                  exact hmem2
            rw [List.map_cons]
            have hh : (if (k1, v1).1 = bucketKey c then
                ((k1, v1).1, bumpBucket (k1, v1).2 c) else (k1, v1)) =
                (k1, bumpBucket v1 c) := if_pos hk
            rw [hh, map_update_id tl (bucketKey c) (fun b => bumpBucket b c) htl]
            unfold totalCount
            rw [List.map_cons, List.sum_cons, List.map_cons, List.sum_cons]
            have hb : (bumpBucket v1 c).count = v1.count + 1 := rfl
            rw [hb]
            have hp : ((k1, v1) : (Nat × Nat × Nat × Nat) × Bucket).2.count = v1.count := rfl
            omega
          · rw [assocLookup_cons, if_neg hk] at hcase
            have hrec := ih h.2 hcase
            rw [List.map_cons]
            have hh : (if (k1, v1).1 = bucketKey c then
                ((k1, v1).1, bumpBucket (k1, v1).2 c) else (k1, v1)) =
                (k1, v1) := if_neg hk
            rw [hh]
            unfold totalCount at hrec ⊢
            rw [List.map_cons, List.sum_cons, List.map_cons, List.sum_cons, hrec]
            omega

/-- Absorbing one border-color sample into the invariant. -/
theorem estInv_border_sample (m : BucketMap) (n t : Nat)
    (h : EstInv m n t) :
    EstInv (addSample m ⟨10, 10, 10, 255⟩) (n + 1) (t + 1) := by
  obtain ⟨hnd, htc, hlk⟩ := h
  refine ⟨keysNodup_addSample m _ hnd, ?_, ?_⟩
  · rw [totalCount_addSample m _ hnd]
    omega
  · rw [assocLookup_addSample]
    have hkey : bucketKey ⟨10, 10, 10, 255⟩ = ((0, 0, 0, 7) : Nat × Nat × Nat × Nat) := by
      decide
    rw [hkey, if_pos rfl, hlk]
    cases n with
    | zero => decide
    | succ k =>
        rw [if_neg (by omega), if_neg (by omega)]
        simp [mergeSample, bumpBucket, c0Bucket, Bucket.mk.injEq]
        all_goals omega

/-- Absorbing one sample from a foreign bucket into the invariant. -/
theorem estInv_other_sample (m : BucketMap) (n t : Nat) (c : Color)
    (hc : bucketKey c ≠ (0, 0, 0, 7)) (h : EstInv m n t) :
    EstInv (addSample m c) n (t + 1) := by
  obtain ⟨hnd, htc, hlk⟩ := h
  refine ⟨keysNodup_addSample m c hnd, ?_, ?_⟩
  · rw [totalCount_addSample m c hnd]
    omega
  · rw [assocLookup_addSample, if_neg (fun hq => hc hq.symm)]
    exact hlk

/-- An in-bounds `registerCoordinate` is one `addSample` of the pixel. -/
theorem registerCoordinate_inbounds (img : Img) (m : BucketMap) (x y : Int)
    (hx0 : 0 ≤ x) (hy0 : 0 ≤ y) (hxw : x < (img.width : Int))
    (hyh : y < (img.height : Int)) :
    registerCoordinate img m x y =
      addSample m (img.data (y.toNat * img.width + x.toNat)) := by
  unfold registerCoordinate
  rw [if_neg (by push_neg; exact ⟨hx0, hy0, hxw, hyh⟩)]
  unfold registerPixel
  rw [if_pos]
  exact coord_lt img.width img.height (by omega) (by omega)

/-- Pixels on the outer ring of the synthetic image. -/
theorem borderNoise_data_border (noise : Nat → Nat → Color) (p : Nat)
    (hb : p % 10 = 0 ∨ p % 10 = 9 ∨ p / 10 = 0 ∨ p / 10 = 9) :
    (borderNoiseImage noise).data p = ⟨10, 10, 10, 255⟩ := if_pos hb

/-- Interior pixels of the synthetic image come from the noise function. -/
theorem borderNoise_data_noise (noise : Nat → Nat → Color) (p : Nat)
    (hb : ¬(p % 10 = 0 ∨ p % 10 = 9 ∨ p / 10 = 0 ∨ p / 10 = 9)) :
    (borderNoiseImage noise).data p = noise (p % 10) (p / 10) := if_neg hb

/-- `registerCoordinate` on the 10×10 synthetic image samples the pixel at
`y * 10 + x`. -/
theorem reg10 (noise : Nat → Nat → Color) (m : BucketMap) (x y : Int)
    (hx0 : 0 ≤ x) (hx : x < 10) (hy0 : 0 ≤ y) (hy : y < 10) :
    registerCoordinate (borderNoiseImage noise) m x y =
      addSample m ((borderNoiseImage noise).data (y.toNat * 10 + x.toNat)) := by
  rw [registerCoordinate_inbounds (borderNoiseImage noise) m x y hx0 hy0
    (by exact hx) (by exact hy)]
  have hidx : y.toNat * (borderNoiseImage noise).width + x.toNat =
      y.toNat * 10 + x.toNat := by
    simp [borderNoiseImage]
  rw [hidx]

/-- Folding invariant-respecting steps over a list of loop indices. -/
theorem estFold_spec (step : BucketMap → Nat → BucketMap) (cnt : Nat → Nat)
    (L : List Nat)
    (hstep : ∀ x ∈ L, ∀ m n t, EstInv m n t →
      EstInv (step m x) (n + cnt x) (t + 4)) :
    ∀ m n t, EstInv m n t →
      EstInv (L.foldl step m) (n + (L.map cnt).sum) (t + 4 * L.length) := by
  induction L with
  | nil =>
      intro m n t h
      simpa using h
  | cons a L ih =>
      intro m n t h
      have h1 := hstep a (List.mem_cons_self _ _) m n t h
      have h2 := ih (fun x hx => hstep x (List.mem_cons_of_mem _ hx)) _ _ _ h1
      have e1 : n + (List.map cnt (a :: L)).sum = n + cnt a + (List.map cnt L).sum := by
        rw [List.map_cons, List.sum_cons]
        omega
      have e2 : t + 4 * (a :: L).length = t + 4 + 4 * L.length := by
        rw [List.length_cons]
        omega
      rw [List.foldl_cons, e1, e2]
      exact h2

/-- One column of the first sampling loop on the synthetic image adds
`ringCnt x` border samples among its four registrations. -/
theorem xColumnStep (noise : Nat → Nat → Color)
    (h : ∀ x y, bucketKey (noise x y) ≠ (0, 0, 0, 7))
    (x : Nat) (hx : x < 10) (m : BucketMap) (n t : Nat) (hinv : EstInv m n t) :
    EstInv
      (registerCoordinate (borderNoiseImage noise)
        (registerCoordinate (borderNoiseImage noise)
          (registerCoordinate (borderNoiseImage noise)
            (registerCoordinate (borderNoiseImage noise) m (x : Int) 0)
            (x : Int) (min 1 (((borderNoiseImage noise).height : Int) - 1)))
          (x : Int) (((borderNoiseImage noise).height : Int) - 1))
        (x : Int) (max (((borderNoiseImage noise).height : Int) - 2) 0))
      (n + ringCnt x) (t + 4) := by
  have hhgt : ((borderNoiseImage noise).height : Int) = 10 := rfl
  have hmin : min 1 (((borderNoiseImage noise).height : Int) - 1) = 1 := by
    rw [hhgt]
    decide
  have hsub : ((borderNoiseImage noise).height : Int) - 1 = 9 := by
    rw [hhgt]
    decide
  have hmax : max (((borderNoiseImage noise).height : Int) - 2) 0 = 8 := by
    rw [hhgt]
    decide
  rw [hmin, hsub, hmax]
  rw [reg10 noise m (x : Int) 0 (by exact_mod_cast Nat.zero_le x)
    (by exact_mod_cast hx) (by norm_num) (by norm_num)]
  rw [reg10 noise _ (x : Int) 1 (by exact_mod_cast Nat.zero_le x)
    (by exact_mod_cast hx) (by norm_num) (by norm_num)]
  rw [reg10 noise _ (x : Int) 9 (by exact_mod_cast Nat.zero_le x)
    (by exact_mod_cast hx) (by norm_num) (by norm_num)]
  rw [reg10 noise _ (x : Int) 8 (by exact_mod_cast Nat.zero_le x)
    (by exact_mod_cast hx) (by norm_num) (by norm_num)]
  have e0 : ((0 : Int).toNat * 10 + ((x : Nat) : Int).toNat) = x := by simp
  have e1 : ((1 : Int).toNat * 10 + ((x : Nat) : Int).toNat) = 10 + x := by simp
  have e9 : ((9 : Int).toNat * 10 + ((x : Nat) : Int).toNat) = 90 + x := by simp
  have e8 : ((8 : Int).toNat * 10 + ((x : Nat) : Int).toNat) = 80 + x := by simp
  rw [e0, e1, e9, e8]
  rw [borderNoise_data_border noise x (by omega),
    borderNoise_data_border noise (90 + x) (by omega)]
  by_cases hx09 : x = 0 ∨ x = 9
  · rw [borderNoise_data_border noise (10 + x) (by omega),
      borderNoise_data_border noise (80 + x) (by omega)]
    have hc : ringCnt x = 4 := if_pos hx09
    rw [hc]
    have h1 := estInv_border_sample m n t hinv
    have h2 := estInv_border_sample _ _ _ h1
    have h3 := estInv_border_sample _ _ _ h2
    have h4 := estInv_border_sample _ _ _ h3
    rw [show n + 4 = n + 1 + 1 + 1 + 1 from by omega,
      show t + 4 = t + 1 + 1 + 1 + 1 from by omega]
    exact h4
  · rw [borderNoise_data_noise noise (10 + x) (by omega),
      borderNoise_data_noise noise (80 + x) (by omega)]
    have hc : ringCnt x = 2 := if_neg hx09
    rw [hc]
    have h1 := estInv_border_sample m n t hinv
    have h2 := estInv_other_sample _ _ _ (noise ((10 + x) % 10) ((10 + x) / 10)) (h _ _) h1
    have h3 := estInv_border_sample _ _ _ h2
    have h4 := estInv_other_sample _ _ _ (noise ((80 + x) % 10) ((80 + x) / 10)) (h _ _) h3
    rw [show n + 2 = n + 1 + 1 from by omega,
      show t + 4 = t + 1 + 1 + 1 + 1 from by omega]
    exact h4

/-- One row of the second sampling loop on the synthetic image adds
`ringCnt y` border samples among its four registrations. -/
theorem yRowStep (noise : Nat → Nat → Color)
    (h : ∀ x y, bucketKey (noise x y) ≠ (0, 0, 0, 7))
    (y : Nat) (hy : y < 10) (m : BucketMap) (n t : Nat) (hinv : EstInv m n t) :
    EstInv
      (registerCoordinate (borderNoiseImage noise)
        (registerCoordinate (borderNoiseImage noise)
          (registerCoordinate (borderNoiseImage noise)
            (registerCoordinate (borderNoiseImage noise) m 0 (y : Int))
            (min 1 (((borderNoiseImage noise).width : Int) - 1)) (y : Int))
          (((borderNoiseImage noise).width : Int) - 1) (y : Int))
        (max (((borderNoiseImage noise).width : Int) - 2) 0) (y : Int))
      (n + ringCnt y) (t + 4) := by
  have hwd : ((borderNoiseImage noise).width : Int) = 10 := rfl
  have hmin : min 1 (((borderNoiseImage noise).width : Int) - 1) = 1 := by
    rw [hwd]
    decide
  have hsub : ((borderNoiseImage noise).width : Int) - 1 = 9 := by
    rw [hwd]
    decide
  have hmax : max (((borderNoiseImage noise).width : Int) - 2) 0 = 8 := by
    rw [hwd]
    decide
  rw [hmin, hsub, hmax]
  rw [reg10 noise m 0 (y : Int) (by norm_num) (by norm_num)
    (by exact_mod_cast Nat.zero_le y) (by exact_mod_cast hy)]
  rw [reg10 noise _ 1 (y : Int) (by norm_num) (by norm_num)
    (by exact_mod_cast Nat.zero_le y) (by exact_mod_cast hy)]
  rw [reg10 noise _ 9 (y : Int) (by norm_num) (by norm_num)
    (by exact_mod_cast Nat.zero_le y) (by exact_mod_cast hy)]
  rw [reg10 noise _ 8 (y : Int) (by norm_num) (by norm_num)
    (by exact_mod_cast Nat.zero_le y) (by exact_mod_cast hy)]
  have e0 : (((y : Nat) : Int).toNat * 10 + (0 : Int).toNat) = y * 10 := by simp
  have e1 : (((y : Nat) : Int).toNat * 10 + (1 : Int).toNat) = y * 10 + 1 := by simp
  have e9 : (((y : Nat) : Int).toNat * 10 + (9 : Int).toNat) = y * 10 + 9 := by simp
  have e8 : (((y : Nat) : Int).toNat * 10 + (8 : Int).toNat) = y * 10 + 8 := by simp
  rw [e0, e1, e9, e8]
  rw [borderNoise_data_border noise (y * 10) (by omega),
    borderNoise_data_border noise (y * 10 + 9) (by omega)]
  by_cases hy09 : y = 0 ∨ y = 9
  · rw [borderNoise_data_border noise (y * 10 + 1) (by omega),
      borderNoise_data_border noise (y * 10 + 8) (by omega)]
    have hc : ringCnt y = 4 := if_pos hy09
    rw [hc]
    have h1 := estInv_border_sample m n t hinv
    have h2 := estInv_border_sample _ _ _ h1
    have h3 := estInv_border_sample _ _ _ h2
    have h4 := estInv_border_sample _ _ _ h3
    rw [show n + 4 = n + 1 + 1 + 1 + 1 from by omega,
      show t + 4 = t + 1 + 1 + 1 + 1 from by omega]
    exact h4
  · rw [borderNoise_data_noise noise (y * 10 + 1) (by omega),
      borderNoise_data_noise noise (y * 10 + 8) (by omega)]
    have hc : ringCnt y = 2 := if_neg hy09
    rw [hc]
    have h1 := estInv_border_sample m n t hinv
    have h2 := estInv_other_sample _ _ _ (noise ((y * 10 + 1) % 10) ((y * 10 + 1) / 10)) (h _ _) h1
    have h3 := estInv_border_sample _ _ _ h2
    have h4 := estInv_other_sample _ _ _ (noise ((y * 10 + 8) % 10) ((y * 10 + 8) / 10)) (h _ _) h3
    rw [show n + 2 = n + 1 + 1 from by omega,
      show t + 4 = t + 1 + 1 + 1 + 1 from by omega]
    exact h4

/-- The completed sampler state on the synthetic image: 48 border samples in
bucket `(0,0,0,7)`, at most 80 samples in total, all keys distinct. -/
theorem buildBuckets_spec (noise : Nat → Nat → Color)
    (h : ∀ x y, bucketKey (noise x y) ≠ (0, 0, 0, 7)) :
    EstInv (buildBuckets (borderNoiseImage noise)) 48 80 := by
  have h0 : EstInv [] 0 0 := ⟨List.nodup_nil, Nat.le_refl 0, rfl⟩
  have hx := estFold_spec
    (fun m x => registerCoordinate (borderNoiseImage noise)
      (registerCoordinate (borderNoiseImage noise)
        (registerCoordinate (borderNoiseImage noise)
          (registerCoordinate (borderNoiseImage noise) m (x : Int) 0)
          (x : Int) (min 1 (((borderNoiseImage noise).height : Int) - 1)))
        (x : Int) (((borderNoiseImage noise).height : Int) - 1))
      (x : Int) (max (((borderNoiseImage noise).height : Int) - 2) 0))
    ringCnt (List.range 10)
    (fun x hxm m n t hinv => xColumnStep noise h x (List.mem_range.mp hxm) m n t hinv)
    [] 0 0 h0
  have hy := estFold_spec
    (fun m y => registerCoordinate (borderNoiseImage noise)
      (registerCoordinate (borderNoiseImage noise)
        (registerCoordinate (borderNoiseImage noise)
          (registerCoordinate (borderNoiseImage noise) m 0 (y : Int))
          (min 1 (((borderNoiseImage noise).width : Int) - 1)) (y : Int))
        (((borderNoiseImage noise).width : Int) - 1) (y : Int))
      (max (((borderNoiseImage noise).width : Int) - 2) 0) (y : Int))
    ringCnt (List.range 10)
    (fun y hym m n t hinv => yRowStep noise h y (List.mem_range.mp hym) m n t hinv)
    _ 24 40 hx
  exact hy

/-- With distinct keys, membership pins down the looked-up bucket. -/
theorem assocLookup_unique (m : BucketMap) (k : Nat × Nat × Nat × Nat)
    (b1 b2 : Bucket) (hnd : KeysNodup m) (hmem : (k, b1) ∈ m)
    (hlk : assocLookup m k = some b2) : b1 = b2 := by
  induction m with
  | nil => cases hmem
  | cons hd tl ih =>
      obtain ⟨k1, v1⟩ := hd
      unfold KeysNodup at hnd
      rw [List.map_cons, List.nodup_cons] at hnd
      rcases List.mem_cons.mp hmem with hh | hh
      · injection hh with hk hb
        subst hk
        subst hb
        rw [assocLookup_cons, if_pos rfl] at hlk
        injection hlk
      · by_cases hk : k1 = k
        · subst hk
          exact absurd (List.mem_map_of_mem Prod.fst hh) hnd.1
        · rw [assocLookup_cons, if_neg hk] at hlk
          exact ih hnd.2 hh hlk

/-- A member's count is bounded by the total count. -/
theorem member_count_le_total (m : BucketMap)
    (kb : (Nat × Nat × Nat × Nat) × Bucket) (hmem : kb ∈ m) :
    kb.2.count ≤ totalCount m := by
  apply List.single_le_sum (fun z _ => Nat.zero_le z)
  exact List.mem_map_of_mem (fun kv => kv.2.count) hmem

/-- Two entries with different keys bound the total count from below. -/
theorem two_entry_count_bound (m : BucketMap) (k0 : Nat × Nat × Nat × Nat)
    (b0 : Bucket) (hlk : assocLookup m k0 = some b0)
    (kb : (Nat × Nat × Nat × Nat) × Bucket) (hmem : kb ∈ m)
    (hne : kb.1 ≠ k0) : kb.2.count + b0.count ≤ totalCount m := by
  induction m with
  | nil => cases hmem
  | cons hd tl ih =>
      obtain ⟨k1, v1⟩ := hd
      have htot : totalCount ((k1, v1) :: tl) = v1.count + totalCount tl := by
        unfold totalCount
        rw [List.map_cons, List.sum_cons]
      rcases List.mem_cons.mp hmem with hh | hh
      · have hk1 : ¬(k1 = k0) := by
          intro hc
          apply hne
          rw [hh, hc]
        rw [assocLookup_cons, if_neg hk1] at hlk
        have hb0 : b0.count ≤ totalCount tl := by
          have hm0 := assocLookup_mem tl k0 b0 hlk
          exact member_count_le_total tl (k0, b0) hm0
        have hkb : kb.2.count = v1.count := by rw [hh]
        omega
      · by_cases hk : k1 = k0
        · subst hk
          rw [assocLookup_cons, if_pos rfl] at hlk
          injection hlk with hlk
          subst hlk
          have := member_count_le_total tl kb hh
          omega
        · rw [assocLookup_cons, if_neg hk] at hlk
          have := ih hlk hh
          omega

/-- The dominant-bucket scan returns the strict maximum when it is unique. -/
theorem selectDominant_unique_max (m : BucketMap)
    (k0 : Nat × Nat × Nat × Nat) (b0 : Bucket) (hmem : (k0, b0) ∈ m)
    (hlt : ∀ kb ∈ m, kb ≠ (k0, b0) → kb.2.count < b0.count) :
    selectDominant m = some b0 := by
  have haux : ∀ (L : BucketMap) (acc : Option Bucket),
      (∀ kb ∈ L, kb = (k0, b0) ∨ kb.2.count < b0.count) →
      (acc = some b0 ∨
        ((k0, b0) ∈ L ∧ (acc = none ∨ ∃ d, acc = some d ∧ d.count < b0.count))) →
      L.foldl
        (fun dom kv =>
          match dom with
          | none => some kv.2
          | some d => if kv.2.count > d.count then some kv.2 else some d) acc =
        some b0 := by
    intro L
    induction L with
    | nil =>
        intro acc h1 h2
        rcases h2 with h2 | ⟨hm, _⟩
        · simpa using h2
        · cases hm
    | cons kb L ih =>
        intro acc h1 h2
        rw [List.foldl_cons]
        have h1' : ∀ z ∈ L, z = (k0, b0) ∨ z.2.count < b0.count :=
          fun z hz => h1 z (List.mem_cons_of_mem _ hz)
        by_cases hkb : kb = (k0, b0)
        · have hkb2 : kb.2 = b0 := by rw [hkb]
          refine ih _ h1' ?_
          left
          rcases h2 with h2 | ⟨_, hacc⟩
          · subst h2
            show (if kb.2.count > b0.count then some kb.2 else some b0) = some b0
            rw [hkb2, if_neg (lt_irrefl _)]
          · rcases hacc with hacc | ⟨d, hacc, hdlt⟩
            · subst hacc
              show some kb.2 = some b0
              rw [hkb2]
            · subst hacc
              show (if kb.2.count > d.count then some kb.2 else some d) = some b0
              rw [hkb2, if_pos hdlt]
        · have hklt : kb.2.count < b0.count := (h1 kb (List.mem_cons_self _ _)).resolve_left hkb
          rcases h2 with h2 | ⟨hm, hacc⟩
          · subst h2
            refine ih _ h1' ?_
            left
            show (if kb.2.count > b0.count then some kb.2 else some b0) = some b0
            rw [if_neg (by omega)]
          · have hm' : (k0, b0) ∈ L := by
              rcases List.mem_cons.mp hm with hcc | hcc
              · exact absurd hcc.symm hkb
              · exact hcc
            refine ih _ h1' ?_
            right
            refine ⟨hm', Or.inr ?_⟩
            rcases hacc with hacc | ⟨d, hacc, hdlt⟩
            · subst hacc
              exact ⟨kb.2, rfl, hklt⟩
            · subst hacc
              by_cases hgt : kb.2.count > d.count
              · refine ⟨kb.2, ?_, hklt⟩
                show (if kb.2.count > d.count then some kb.2 else some d) = some kb.2
                rw [if_pos hgt]
              · refine ⟨d, ?_, hdlt⟩
                show (if kb.2.count > d.count then some kb.2 else some d) = some d
                rw [if_neg hgt]
  have h1 : ∀ kb ∈ m, kb = (k0, b0) ∨ kb.2.count < b0.count := by
    intro kb hkb
    by_cases hk : kb = (k0, b0)
    · exact Or.inl hk
    · exact Or.inr (hlt kb hkb hk)
  exact haux m none h1 (Or.inr ⟨hmem, Or.inl rfl⟩)

/-- C9: with no override, the estimator on a 10×10 image whose border ring is
uniformly `(10,10,10,255)` and whose interior is noise (any interior whose
colors avoid the border's quantization bucket, as random noise does almost
surely) returns exactly `(10,10,10,255)`: the 48 border samples dominate the
at-most-32 interior samples and their bucket mean is exact. -/
theorem c9_background_estimation (noise : Nat → Nat → Color)
    (h : ∀ x y, bucketKey (noise x y) ≠ (0, 0, 0, 7)) :
    sampleBackgroundColor (borderNoiseImage noise) none = ⟨10, 10, 10, 255⟩ := by
  obtain ⟨hnd, htc, hlk⟩ := buildBuckets_spec noise h
  rw [if_neg (by omega)] at hlk
  have hmem := assocLookup_mem _ _ _ hlk
  have hlt : ∀ kb ∈ buildBuckets (borderNoiseImage noise),
      kb ≠ ((0, 0, 0, 7), c0Bucket 48) → kb.2.count < (c0Bucket 48).count := by
    intro kb hkb hne
    obtain ⟨kk, bb⟩ := kb
    by_cases hk : kk = (0, 0, 0, 7)
    · subst hk
      have := assocLookup_unique _ _ _ _ hnd hkb hlk
      exact absurd (by rw [this]) hne
    · have hb := two_entry_count_bound _ _ _ hlk (kk, bb) hkb hk
      have hc : (c0Bucket 48).count = 48 := rfl
      rw [hc]
      have hb' : bb.count + 48 ≤ totalCount (buildBuckets (borderNoiseImage noise)) := by
        rw [← hc]
        exact hb
      omega
  have hsel := selectDominant_unique_max _ _ _ hmem hlt
  have hne : buildBuckets (borderNoiseImage noise) ≠ [] := by
    intro he
    rw [he] at hmem
    cases hmem
  have hdim : ¬((borderNoiseImage noise).width = 0 ∨
      (borderNoiseImage noise).height = 0) := by
    intro hc
    rcases hc with hc | hc <;> simp [borderNoiseImage] at hc
  show sampleBackgroundColor (borderNoiseImage noise) none = _
  unfold sampleBackgroundColor
  rw [if_neg hdim, if_neg hne, hsel]
  decide

/-- C9 witness: the general estimate instantiated with a concrete
pseudo-random interior (its alpha channel quantizes to bucket 3 ≠ 7). -/
theorem c9_witness :
    sampleBackgroundColor (borderNoiseImage concreteNoise) none =
      ⟨10, 10, 10, 255⟩ := by
  apply c9_background_estimation
  intro x y hkey
  have h96 : (bucketKey (concreteNoise x y)).2.2.2 = 3 := by
    simp [bucketKey, concreteNoise, quantize]
  rw [hkey] at h96
  cases h96

end AIComp